import Mathlib

/-!
Verification of the statsmodels state-space build manifest (setup.py) and of the
spec-level description of the Kalman filtering / smoothing / regime-switching core.

The build manifest (setup.py) is embedded directly.  The numerical kernels named by
the manifest are not part of the available source tree, so the filtering, smoothing
and regime-switching recursions are modelled from the specification text, over exact
rational arithmetic, and the spec's claimed properties are proved about those models.
-/

set_option maxRecDepth 8000

/-! ## Embedding of the build manifest (setup.py)

An extension entry of the `ext_data` / `statespace_ext_data` dictionaries.
Only the fields that determine which native kernels exist are modelled:
`key` (the dictionary key), `name` (the C source path) and the optional
`filename` override.  The remaining fields (`include_dirs`, `libraries`,
`library_dirs`, `depends`, `sources`) are environment-derived build metadata
(from `npymath_info`) and play no role in kernel identity. -/

structure ExtEntry where
  key : String
  name : String
  filename : Option String
deriving DecidableEq

/-- The effective kernel filename of an entry: setup.py builds each extension as
`Extension(destdir.filename)` where `filename = data.pop('filename', name)`,
i.e. the `filename` field when present, otherwise the dictionary key. -/
def extFilename (e : ExtEntry) : String := e.filename.getD e.key

/-- The `ext_data` dictionary of setup.py (lines 321-336): the regime-switching
kernels and the legacy `_statespace` kernel, built unconditionally. -/
def ext_data : List ExtEntry :=
  [⟨"_hamilton_filter", "statsmodels/tsa/regime_switching/_hamilton_filter.c", none⟩,
   ⟨"_kim_smoother", "statsmodels/tsa/regime_switching/_kim_smoother.c", none⟩,
   ⟨"_statespace", "statsmodels/tsa/statespace/_statespace.c", none⟩]

/-- The `statespace_ext_data` dictionary of setup.py (lines 338-405): the twelve
state-space kernels, added to the build only when `scipy.linalg.cython_blas`
imports successfully. -/
def statespace_ext_data : List ExtEntry :=
  [⟨"_representation", "statsmodels/tsa/statespace/_representation.c", none⟩,
   ⟨"_kalman_filter", "statsmodels/tsa/statespace/_kalman_filter.c", none⟩,
   ⟨"_kalman_filter_conventional", "statsmodels/tsa/statespace/_filters/_conventional.c",
    some "_conventional"⟩,
   ⟨"_kalman_filter_inversions", "statsmodels/tsa/statespace/_filters/_inversions.c",
    some "_inversions"⟩,
   ⟨"_kalman_filter_univariate", "statsmodels/tsa/statespace/_filters/_univariate.c",
    some "_univariate"⟩,
   ⟨"_kalman_smoother", "statsmodels/tsa/statespace/_kalman_smoother.c", none⟩,
   ⟨"_kalman_smoother_alternative", "statsmodels/tsa/statespace/_smoothers/_alternative.c",
    some "_alternative"⟩,
   ⟨"_kalman_smoother_classical", "statsmodels/tsa/statespace/_smoothers/_classical.c",
    some "_classical"⟩,
   ⟨"_kalman_smoother_conventional", "statsmodels/tsa/statespace/_smoothers/_conventional.c",
    some "_conventional"⟩,
   ⟨"_kalman_smoother_univariate", "statsmodels/tsa/statespace/_smoothers/_univariate.c",
    some "_univariate"⟩,
   ⟨"_kalman_simulation_smoother", "statsmodels/tsa/statespace/_simulation_smoother.c",
    some "_simulation_smoother"⟩,
   ⟨"_kalman_tools", "statsmodels/tsa/statespace/_tools.c", some "_tools"⟩]

/-- Kernel-reducible directory-prefix test on paths (character-level). -/
def pathHasDirPrefix (p s : String) : Bool := p.data.isPrefixOf s.data

/-- The entries of `statespace_ext_data` whose C source lives under
`statsmodels/tsa/statespace/_filters/`. -/
def filterKernelEntries : List ExtEntry :=
  statespace_ext_data.filter
    (fun e => pathHasDirPrefix "statsmodels/tsa/statespace/_filters/" e.name)

/-- The entries of `statespace_ext_data` whose C source lives under
`statsmodels/tsa/statespace/_smoothers/`. -/
def smootherKernelEntries : List ExtEntry :=
  statespace_ext_data.filter
    (fun e => pathHasDirPrefix "statsmodels/tsa/statespace/_smoothers/" e.name)

/-- The filter method set accepted by the external interface:
`filter(Representation, method: {conventional|inversion|univariate})`. -/
inductive FilterMethod
  | conventional
  | inversion
  | univariate
deriving DecidableEq, Fintype

/-- The kernel filename implementing each filter method. -/
def filterMethodKernel : FilterMethod → String
  | .conventional => "_conventional"
  | .inversion => "_inversions"
  | .univariate => "_univariate"

/-- The smoother method set accepted by the external interface:
`smooth(Representation, FilterOutput, method: {conventional|classical|alternative|univariate})`. -/
inductive SmootherMethod
  | conventional
  | classical
  | alternative
  | univariate
deriving DecidableEq, Fintype

/-- The kernel filename implementing each smoother method. -/
def smootherMethodKernel : SmootherMethod → String
  | .conventional => "_conventional"
  | .classical => "_classical"
  | .alternative => "_alternative"
  | .univariate => "_univariate"

/-- C1: the build manifest defines exactly three Kalman-filter method kernels under
`statsmodels/tsa/statespace/_filters/`, named `_conventional`, `_inversions` and
`_univariate`, and the map sending each interface filter method of
`{conventional, inversion, univariate}` to its kernel filename is a bijection onto
that set of kernel names (one-for-one). -/
theorem filter_kernels_match_filter_methods :
    filterKernelEntries.length = 3
    ∧ filterKernelEntries.map extFilename = ["_conventional", "_inversions", "_univariate"]
    ∧ (filterKernelEntries.map extFilename).Nodup
    ∧ Function.Injective filterMethodKernel
    ∧ ∀ m : FilterMethod, filterMethodKernel m ∈ filterKernelEntries.map extFilename := by
  refine ⟨by decide, by decide, by decide, by decide, ?_⟩
  intro m
  cases m <;> decide

/-- C2: the build manifest defines exactly four Kalman-smoother method kernels under
`statsmodels/tsa/statespace/_smoothers/`, named `_alternative`, `_classical`,
`_conventional` and `_univariate`, and the map sending each interface smoother method
of `{conventional, classical, alternative, univariate}` to its kernel filename is a
bijection onto that set of kernel names (one-for-one). -/
theorem smoother_kernels_match_smoother_methods :
    smootherKernelEntries.length = 4
    ∧ smootherKernelEntries.map extFilename
        = ["_alternative", "_classical", "_conventional", "_univariate"]
    ∧ (smootherKernelEntries.map extFilename).Nodup
    ∧ Function.Injective smootherMethodKernel
    ∧ ∀ m : SmootherMethod, smootherMethodKernel m ∈ smootherKernelEntries.map extFilename := by
  refine ⟨by decide, by decide, by decide, by decide, ?_⟩
  intro m
  cases m <;> decide

/-- C3 counterexample: the number of native extension entries declared in `ext_data`
together with `statespace_ext_data` is 15, not 13. -/
theorem ext_entry_count_is_fifteen_not_thirteen :
    (ext_data ++ statespace_ext_data).length = 15
    ∧ (ext_data ++ statespace_ext_data).length ≠ 13 := by
  decide

/-- C3 amended: `ext_data` together with `statespace_ext_data` declares 15 native
extension entries, and the number of distinct kernel filenames among them is exactly 13
(the `_filters/` and `_smoothers/` directories each reuse the filenames `_conventional`
and `_univariate`), matching the spec's count of ~13 distinct native kernels. -/
theorem ext_entries_fifteen_distinct_kernels_thirteen :
    (ext_data ++ statespace_ext_data).length = 15
    ∧ ((ext_data ++ statespace_ext_data).map extFilename).dedup.length = 13 := by
  decide

/-! ## Conditional inclusion of the state-space kernels (setup.py lines 406-414)

`try: from scipy.linalg import cython_blas / ext_data.update(statespace_ext_data)`
with the `except ImportError` branch appending each entry's `.pyx.in` path to the
cython exclusion file. -/

/-- Kernel-reducible model of Python `s.split('.')[0]`: the characters before the
first `'.'`. -/
def takeUntilDot (s : String) : String := ⟨s.data.takeWhile (fun c => c != '.')⟩

/-- The path appended to the cython exclusion file for an excluded entry:
`'.'.join([data["name"].split('.')[0], 'pyx.in'])` (the subsequent
`path.replace('/', os.path.sep)` is the identity with the POSIX separator). -/
def pyxExclusionPath (e : ExtEntry) : String := takeUntilDot e.name ++ ".pyx.in"

/-- The final extension dictionary: `statespace_ext_data` is merged into `ext_data`
exactly when `from scipy.linalg import cython_blas` succeeds. -/
def assembledExtData (cythonBlasImportOk : Bool) : List ExtEntry :=
  if cythonBlasImportOk then ext_data ++ statespace_ext_data else ext_data

/-- The contents written to the cython exclusion file: empty on import success, and
the twelve `.pyx.in` paths of `statespace_ext_data` on import failure. -/
def exclusionFileContents (cythonBlasImportOk : Bool) : List String :=
  if cythonBlasImportOk then [] else statespace_ext_data.map pyxExclusionPath

/-- C10: the twelve `statespace_ext_data` kernels are in the build exactly when the
`cython_blas` import succeeds; on failure each of their `.pyx.in` paths is written to
the exclusion file and none of them is compiled, while the regime-switching kernels
and `_statespace` from `ext_data` are built unconditionally. -/
theorem statespace_kernels_built_iff_cython_blas :
    statespace_ext_data.length = 12
    ∧ (∀ e ∈ statespace_ext_data, e ∈ assembledExtData true ∧ e ∉ assembledExtData false)
    ∧ (∀ ok : Bool, ∀ e ∈ ext_data, e ∈ assembledExtData ok)
    ∧ exclusionFileContents true = []
    ∧ exclusionFileContents false =
        ["statsmodels/tsa/statespace/_representation.pyx.in",
         "statsmodels/tsa/statespace/_kalman_filter.pyx.in",
         "statsmodels/tsa/statespace/_filters/_conventional.pyx.in",
         "statsmodels/tsa/statespace/_filters/_inversions.pyx.in",
         "statsmodels/tsa/statespace/_filters/_univariate.pyx.in",
         "statsmodels/tsa/statespace/_kalman_smoother.pyx.in",
         "statsmodels/tsa/statespace/_smoothers/_alternative.pyx.in",
         "statsmodels/tsa/statespace/_smoothers/_classical.pyx.in",
         "statsmodels/tsa/statespace/_smoothers/_conventional.pyx.in",
         "statsmodels/tsa/statespace/_smoothers/_univariate.pyx.in",
         "statsmodels/tsa/statespace/_simulation_smoother.pyx.in",
         "statsmodels/tsa/statespace/_tools.pyx.in"] := by
  decide

/-- C10 witness: the `_representation` kernel entry concretely. -/
theorem statespace_kernels_built_iff_cython_blas_witness :
    (⟨"_representation", "statsmodels/tsa/statespace/_representation.c", none⟩ : ExtEntry)
        ∈ assembledExtData true
    ∧ (⟨"_representation", "statsmodels/tsa/statespace/_representation.c", none⟩ : ExtEntry)
        ∉ assembledExtData false
    ∧ (⟨"_statespace", "statsmodels/tsa/statespace/_statespace.c", none⟩ : ExtEntry)
        ∈ assembledExtData false := by
  refine ⟨?_, ?_, ?_⟩
  · exact (statespace_kernels_built_iff_cython_blas.2.1 _ (by decide)).1
  · exact (statespace_kernels_built_iff_cython_blas.2.1 _ (by decide)).2
  · exact statespace_kernels_built_iff_cython_blas.2.2.1 false _ (by decide)

/-! ## Embedding of `check_dependency_versions` (setup.py lines 96-156)

Versions are modelled as lists of naturals, compared as Python compares
`LooseVersion` objects, i.e. lexicographically with a shorter list that is a
prefix of a longer one comparing as smaller. -/

/-- Python-style lexicographic comparison of version component lists:
`versionLe a b` is `LooseVersion(b) >= LooseVersion(a)` restricted to numeric
components. -/
def versionLe : List ℕ → List ℕ → Bool
  | [], _ => true
  | _ :: _, [] => false
  | a :: as, b :: bs => if a < b then true else if b < a then false else versionLe as bs

/-- The `min_versions` dictionary passed to `check_dependency_versions`. -/
structure MinVersions where
  numpy : List ℕ
  scipy : List ℕ
  pandas : List ℕ
  patsy : List ℕ

/-- The installation state the function probes by `import`: for each dependency,
`none` means the import fails (not installed), `some v` means it is installed at
version `v`.  For patsy, `v` stands for the numeric part extracted by the regex
match on `patsy.__version__`. -/
structure DepEnv where
  numpy : Option (List ℕ)
  scipy : Option (List ℕ)
  pandas : Option (List ℕ)
  patsy : Option (List ℕ)

/-- A raised `ImportError("<Lib> version is %s. Requires >= %s")`. -/
inductive DepError
  | importError (lib : String) (installed required : List ℕ)
deriving DecidableEq

/-- Embedding of `check_dependency_versions`: returns the
`(setup_requires, install_requires)` lists, or the raised error.  The pandas
branch (setup.py lines 140-143) evaluates the `ImportError(...)` expression
without a `raise` statement, so the constructed error is discarded and execution
continues; this is modelled by the unused `let` binding. -/
def check_dependency_versions (mv : MinVersions) (env : DepEnv) :
    Except DepError (List String × List String) :=
  (match env.numpy with
   | none => Except.ok (["numpy"], ["numpy"])
   | some v =>
     if versionLe mv.numpy v then Except.ok ([], [])
     else Except.error (DepError.importError "numpy" v mv.numpy)).bind fun sri =>
  (match env.scipy with
   | none => Except.ok (sri.1, sri.2 ++ ["scipy"])
   | some v =>
     if versionLe mv.scipy v then Except.ok sri
     else Except.error (DepError.importError "scipy" v mv.scipy)).bind fun sri =>
  (match env.pandas with
   | none => Except.ok (sri.1, sri.2 ++ ["pandas"])
   | some v =>
     if versionLe mv.pandas v then Except.ok sri
     else
       let _unraised := DepError.importError "pandas" v mv.pandas
       Except.ok sri).bind fun sri =>
  match env.patsy with
  | none => Except.ok (sri.1, sri.2 ++ ["patsy"])
  | some v =>
    if versionLe mv.patsy v then Except.ok sri
    else Except.error (DepError.importError "patsy" v mv.patsy)

/-- A dependency passes its check either by not being installed or by meeting the
minimum version. -/
def depOk (minv : List ℕ) (inst : Option (List ℕ)) : Bool :=
  match inst with
  | none => true
  | some v => versionLe minv v

/-- The `install_requires` list of a normal return (empty on a raised error). -/
def installRequiresOf : Except DepError (List String × List String) → List String
  | .ok r => r.2
  | .error _ => []

/-- C9: `check_dependency_versions` does not enforce the pandas minimum version:
with pandas installed below `min_versions['pandas']` (and the other dependencies
passing), the function returns normally and does not add "pandas" to
`install_requires`; whereas an installed-but-too-old numpy, scipy or patsy raises
`ImportError` (for patsy, with no condition on the pandas state at all). -/
theorem pandas_version_check_not_enforced :
    (∀ (mv : MinVersions) (env : DepEnv) (v : List ℕ),
        env.pandas = some v → versionLe mv.pandas v = false →
        depOk mv.numpy env.numpy = true → depOk mv.scipy env.scipy = true →
        depOk mv.patsy env.patsy = true →
        (check_dependency_versions mv env).isOk = true
          ∧ "pandas" ∉ installRequiresOf (check_dependency_versions mv env))
    ∧ (∀ (mv : MinVersions) (env : DepEnv) (v : List ℕ),
        env.numpy = some v → versionLe mv.numpy v = false →
        check_dependency_versions mv env = .error (.importError "numpy" v mv.numpy))
    ∧ (∀ (mv : MinVersions) (env : DepEnv) (v : List ℕ),
        env.scipy = some v → versionLe mv.scipy v = false →
        depOk mv.numpy env.numpy = true →
        check_dependency_versions mv env = .error (.importError "scipy" v mv.scipy))
    ∧ (∀ (mv : MinVersions) (env : DepEnv) (v : List ℕ),
        env.patsy = some v → versionLe mv.patsy v = false →
        depOk mv.numpy env.numpy = true → depOk mv.scipy env.scipy = true →
        check_dependency_versions mv env = .error (.importError "patsy" v mv.patsy)) := by
  refine ⟨?_, ?_, ?_, ?_⟩
  · intro mv env v hp hlt hn hs hpat
    rcases env with ⟨en, es, ep, epat⟩
    simp only at hp
    subst hp
    rcases en with _ | vn <;> rcases es with _ | vs <;> rcases epat with _ | vpat <;>
        simp only [depOk] at hn hs hpat <;>
      constructor <;>
        simp [check_dependency_versions, Except.bind, installRequiresOf, Except.isOk,
          Except.toBool, hlt, hn, hs, hpat]
  · intro mv env v hn hlt
    rcases env with ⟨en, es, ep, epat⟩
    simp only at hn
    subst hn
    simp [check_dependency_versions, hlt, Except.bind]
  · intro mv env v hs hlt hn
    rcases env with ⟨en, es, ep, epat⟩
    simp only at hs
    subst hs
    cases en with
    | none => simp [check_dependency_versions, hlt, Except.bind]
    | some vn =>
      simp only [depOk] at hn
      simp [check_dependency_versions, hlt, hn, Except.bind]
  · intro mv env v hpat hlt hn hs
    rcases env with ⟨en, es, ep, epat⟩
    simp only at hpat
    subst hpat
    cases en with
    | none =>
      cases es with
      | none =>
        cases ep with
        | none => simp [check_dependency_versions, hlt, Except.bind]
        | some vp =>
          by_cases hp : versionLe mv.pandas vp <;>
            simp [check_dependency_versions, hlt, hp, Except.bind]
      | some vs =>
        simp only [depOk] at hs
        cases ep with
        | none => simp [check_dependency_versions, hlt, hs, Except.bind]
        | some vp =>
          by_cases hp : versionLe mv.pandas vp <;>
            simp [check_dependency_versions, hlt, hs, hp, Except.bind]
    | some vn =>
      simp only [depOk] at hn
      cases es with
      | none =>
        cases ep with
        | none => simp [check_dependency_versions, hlt, hn, Except.bind]
        | some vp =>
          by_cases hp : versionLe mv.pandas vp <;>
            simp [check_dependency_versions, hlt, hn, hp, Except.bind]
      | some vs =>
        simp only [depOk] at hs
        cases ep with
        | none => simp [check_dependency_versions, hlt, hn, hs, Except.bind]
        | some vp =>
          by_cases hp : versionLe mv.pandas vp <;>
            simp [check_dependency_versions, hlt, hn, hs, hp, Except.bind]

/-- C9 witness: pandas 0.17 installed against minimum 0.18 returns normally, while
numpy 1.7 against minimum 1.8 raises. -/
theorem pandas_version_check_not_enforced_witness :
    ((check_dependency_versions ⟨[1, 8], [0, 16], [0, 18], [0, 4]⟩
          ⟨none, none, some [0, 17], none⟩).isOk = true
      ∧ "pandas" ∉ installRequiresOf (check_dependency_versions ⟨[1, 8], [0, 16], [0, 18], [0, 4]⟩
          ⟨none, none, some [0, 17], none⟩))
    ∧ check_dependency_versions ⟨[1, 8], [0, 16], [0, 18], [0, 4]⟩
        ⟨some [1, 7], none, some [0, 17], none⟩
        = .error (.importError "numpy" [1, 7] [1, 8]) := by
  constructor
  · exact pandas_version_check_not_enforced.1
      ⟨[1, 8], [0, 16], [0, 18], [0, 4]⟩ ⟨none, none, some [0, 17], none⟩
      [0, 17] rfl (by decide) (by decide) (by decide) (by decide)
  · exact pandas_version_check_not_enforced.2.1
      ⟨[1, 8], [0, 16], [0, 18], [0, 4]⟩ ⟨some [1, 7], none, some [0, 17], none⟩
      [1, 7] rfl (by decide)

/-! ## Spec-modelled state-space core

The numerical kernels named by the build manifest
(`_representation`, `_kalman_filter`, `_filters/*`, `_kalman_smoother`,
`_smoothers/*`, `_hamilton_filter`, `_kim_smoother`) are not part of the
available source tree, so the recursions below are modelled from the
specification (sections 3, 4.2, 4.3, 4.5), over exact rational arithmetic. -/

open Matrix

namespace SSM

/-- Computable matrix inverse over ℚ by the adjugate formula; agrees with
Mathlib's `Matrix.inv` (and is `0` on singular matrices). -/
def qInv {ι : Type} [Fintype ι] [DecidableEq ι] (A : Matrix ι ι ℚ) : Matrix ι ι ℚ :=
  (A.det)⁻¹ • A.adjugate

theorem qInv_eq_inv {ι : Type} [Fintype ι] [DecidableEq ι] (A : Matrix ι ι ℚ) :
    qInv A = A⁻¹ := by
  rw [Matrix.inv_def, Ring.inverse_eq_inv]
  rfl

/-- Modelled from the spec: the observation-equation data entering one period's
measurement update, over an index type ι of (non-missing) observation rows:
design block `Z`, observation covariance block `H`, observations `y` and
observation intercept `d`. -/
structure BatchObs (ι : Type) (k : ℕ) where
  Z : Matrix ι (Fin k) ℚ
  H : Matrix ι ι ℚ
  y : ι → ℚ
  d : ι → ℚ

/-- Forecast error covariance `F = Z P Zᵀ + H` (spec section 4.2, step 2). -/
def batchF {ι : Type} [Fintype ι] {k : ℕ} (P : Matrix (Fin k) (Fin k) ℚ)
    (B : BatchObs ι k) : Matrix ι ι ℚ :=
  B.Z * P * B.Zᵀ + B.H

/-- Forecast error `v = y - Z a - d` (spec section 4.2, step 2). -/
def batchV {ι : Type} [Fintype ι] {k : ℕ} (a : Fin k → ℚ) (B : BatchObs ι k) : ι → ℚ :=
  fun i => B.y i - (B.Z *ᵥ a) i - B.d i

/-- Filtered state `a + P Zᵀ F⁻¹ v` (spec section 4.2, step 2). -/
def batchA {ι : Type} [Fintype ι] [DecidableEq ι] {k : ℕ} (a : Fin k → ℚ)
    (P : Matrix (Fin k) (Fin k) ℚ) (B : BatchObs ι k) : Fin k → ℚ :=
  a + P *ᵥ (B.Zᵀ *ᵥ (qInv (batchF P B) *ᵥ batchV a B))

/-- Filtered covariance in the standard form `P - P Zᵀ F⁻¹ Z P`
(spec section 4.2, step 2). -/
def batchP {ι : Type} [Fintype ι] [DecidableEq ι] {k : ℕ}
    (P : Matrix (Fin k) (Fin k) ℚ) (B : BatchObs ι k) : Matrix (Fin k) (Fin k) ℚ :=
  P - P * B.Zᵀ * qInv (batchF P B) * B.Z * P

/-- The determinant `|F|` entering the period's log-likelihood contribution
(spec section 4.2, step 3). -/
def batchDet {ι : Type} [Fintype ι] [DecidableEq ι] {k : ℕ}
    (P : Matrix (Fin k) (Fin k) ℚ) (B : BatchObs ι k) : ℚ :=
  (batchF P B).det

/-- The quadratic form `vᵀ F⁻¹ v` entering the period's log-likelihood
contribution (spec section 4.2, step 3). -/
def batchQuad {ι : Type} [Fintype ι] [DecidableEq ι] {k : ℕ} (a : Fin k → ℚ)
    (P : Matrix (Fin k) (Fin k) ℚ) (B : BatchObs ι k) : ℚ :=
  batchV a B ⬝ᵥ (qInv (batchF P B) *ᵥ batchV a B)

/-- Modelled from the spec (section 3): the state-space representation, with
state dimension `k`, observation dimension `p` and state-shock dimension `r`.
All matrices are indexed per period (a time-invariant matrix is a constant
function); missing observations are marked per (time, observation-index). -/
structure Representation (k p r : ℕ) where
  Z : ℕ → Matrix (Fin p) (Fin k) ℚ
  d : ℕ → Fin p → ℚ
  H : ℕ → Matrix (Fin p) (Fin p) ℚ
  T : ℕ → Matrix (Fin k) (Fin k) ℚ
  c : ℕ → Fin k → ℚ
  R : ℕ → Matrix (Fin k) (Fin r) ℚ
  Q : ℕ → Matrix (Fin r) (Fin r) ℚ
  a1 : Fin k → ℚ
  P1 : Matrix (Fin k) (Fin k) ℚ
  y : ℕ → Fin p → ℚ
  missing : ℕ → Fin p → Bool

/-- The index type of the observation rows that are not marked missing at a
period with missingness mask `m`. -/
abbrev ObsIdx {p : ℕ} (m : Fin p → Bool) : Type := {i : Fin p // m i = false}

/-- Modelled from the spec (section 4.2, step 4): the rows/columns of `Z_t`,
`d_t`, `H_t` (and of `y_t`) corresponding to missing observation indices are
excluded from the update for that period. -/
def obsData {k p r : ℕ} (rep : Representation k p r) (t : ℕ) :
    BatchObs (ObsIdx (rep.missing t)) k :=
  ⟨Matrix.of fun i j => rep.Z t i.1 j,
   Matrix.of fun i j => rep.H t i.1 j.1,
   fun i => rep.y t i.1,
   fun i => rep.d t i.1⟩

/-- Prediction step (spec section 4.2, step 1):
`a_{t+1} = T_t a_{t|t} + c_t`, `P_{t+1} = T_t P_{t|t} T_tᵀ + R_t Q_t R_tᵀ`. -/
def predStep {k p r : ℕ} (rep : Representation k p r) (t : ℕ) (af : Fin k → ℚ)
    (Pf : Matrix (Fin k) (Fin k) ℚ) : (Fin k → ℚ) × Matrix (Fin k) (Fin k) ℚ :=
  (rep.T t *ᵥ af + rep.c t, rep.T t * Pf * (rep.T t)ᵀ + rep.R t * rep.Q t * (rep.R t)ᵀ)

/-- The predicted state and covariance `(a_t, P_t)` of the conventional Kalman
filter recursion, with `(a_0, P_0) = (a1, P1)` the initial conditions. -/
def predicted {k p r : ℕ} (rep : Representation k p r) :
    ℕ → (Fin k → ℚ) × Matrix (Fin k) (Fin k) ℚ
  | 0 => (rep.a1, rep.P1)
  | t + 1 =>
    let s := predicted rep t
    predStep rep t (batchA s.1 s.2 (obsData rep t)) (batchP s.2 (obsData rep t))

/-- The filtered state `a_{t|t}` of the conventional Kalman filter. -/
def filteredA {k p r : ℕ} (rep : Representation k p r) (t : ℕ) : Fin k → ℚ :=
  batchA (predicted rep t).1 (predicted rep t).2 (obsData rep t)

/-- The filtered covariance `P_{t|t}` of the conventional Kalman filter. -/
def filteredP {k p r : ℕ} (rep : Representation k p r) (t : ℕ) :
    Matrix (Fin k) (Fin k) ℚ :=
  batchP (predicted rep t).2 (obsData rep t)

theorem mulVec_of_isEmpty {ι κ : Type} [Fintype ι] [IsEmpty ι]
    (M : Matrix κ ι ℚ) (x : ι → ℚ) : M *ᵥ x = 0 := by
  funext j
  simp [Matrix.mulVec, dotProduct, Finset.univ_eq_empty]

theorem mul_of_isEmpty_mid {ι κ κ' : Type} [Fintype ι] [IsEmpty ι]
    (M : Matrix κ ι ℚ) (N : Matrix ι κ' ℚ) : M * N = 0 := by
  ext j j'
  simp [Matrix.mul_apply, Finset.univ_eq_empty]

theorem batchA_of_isEmpty {ι : Type} [Fintype ι] [DecidableEq ι] [IsEmpty ι] {k : ℕ}
    (a : Fin k → ℚ) (P : Matrix (Fin k) (Fin k) ℚ) (B : BatchObs ι k) :
    batchA a P B = a := by
  unfold batchA
  rw [mulVec_of_isEmpty B.Zᵀ (qInv (batchF P B) *ᵥ batchV a B), Matrix.mulVec_zero, add_zero]

theorem batchP_of_isEmpty {ι : Type} [Fintype ι] [DecidableEq ι] [IsEmpty ι] {k : ℕ}
    (P : Matrix (Fin k) (Fin k) ℚ) (B : BatchObs ι k) :
    batchP P B = P := by
  unfold batchP
  rw [mul_of_isEmpty_mid (P * B.Zᵀ * qInv (batchF P B)) B.Z, Matrix.zero_mul, sub_zero]

/-- C4: at every period whose observations are all marked missing, the update is
skipped exactly: the filtered state equals the predicted state and the filtered
covariance equals the predicted covariance, `a_{t|t} = a_t` and `P_{t|t} = P_t`. -/
theorem all_missing_skips_update {k p r : ℕ} (rep : Representation k p r) (t : ℕ)
    (h : ∀ i, rep.missing t i = true) :
    filteredA rep t = (predicted rep t).1 ∧ filteredP rep t = (predicted rep t).2 := by
  haveI : IsEmpty (ObsIdx (rep.missing t)) :=
    ⟨fun i => by have := (h i.1).symm.trans i.2; exact Bool.noConfusion this⟩
  exact ⟨batchA_of_isEmpty _ _ _, batchP_of_isEmpty _ _⟩

/-- A concrete one-dimensional local-level representation with every observation
marked missing. -/
def repAllMissing : Representation 1 1 1 :=
  ⟨fun _ => Matrix.of fun _ _ => 1, fun _ _ => 0, fun _ => Matrix.of fun _ _ => 1,
   fun _ => Matrix.of fun _ _ => 1, fun _ _ => 0, fun _ => Matrix.of fun _ _ => 1,
   fun _ => Matrix.of fun _ _ => 1, fun _ => 0, Matrix.of fun _ _ => 1,
   fun _ _ => 0, fun _ _ => true⟩

/-- C4 witness: the all-missing period 0 of `repAllMissing`. -/
theorem all_missing_skips_update_witness :
    filteredA repAllMissing 0 = (predicted repAllMissing 0).1
      ∧ filteredP repAllMissing 0 = (predicted repAllMissing 0).2 :=
  all_missing_skips_update repAllMissing 0 (fun _ => rfl)

/-! ### Kalman smoother (spec section 4.3), conventional method -/

/-- The Kalman gain `K_t = T_t P_t Zᵀ F⁻¹` entering `L_t = T_t - K_t Z_t`
(spec section 4.3), over the non-missing observation rows. -/
def gainK {k p r : ℕ} (rep : Representation k p r) (t : ℕ) :
    Matrix (Fin k) (ObsIdx (rep.missing t)) ℚ :=
  rep.T t * (predicted rep t).2 * (obsData rep t).Zᵀ
    * qInv (batchF (predicted rep t).2 (obsData rep t))

/-- The smoother matrix `L_t = T_t - K_t Z_t` (spec section 4.3). -/
def lMat {k p r : ℕ} (rep : Representation k p r) (t : ℕ) : Matrix (Fin k) (Fin k) ℚ :=
  rep.T t - gainK rep t * (obsData rep t).Z

/-- One step of the backward recursion of the scaled smoothing error:
`r_{t-1} = Z_tᵀ F_t⁻¹ v_t + L_tᵀ r_t` (spec section 4.3). -/
def smoothErrStep {k p r : ℕ} (rep : Representation k p r) (t : ℕ)
    (rnext : Fin k → ℚ) : Fin k → ℚ :=
  (obsData rep t).Zᵀ
      *ᵥ (qInv (batchF (predicted rep t).2 (obsData rep t))
      *ᵥ batchV (predicted rep t).1 (obsData rep t))
    + (lMat rep t)ᵀ *ᵥ rnext

/-- The scaled smoothing errors of the backward recursion over periods
`0, ..., N-1`, indexed from the end: `smoothErr rep N j` is `r_{N-1-j}` with the
initialization `r_{N-1} = 0` at `j = 0`, and
`smoothErr rep N (j+1) = r_{t-1}` for `t = N-1-j`. -/
def smoothErr {k p r : ℕ} (rep : Representation k p r) (N : ℕ) : ℕ → (Fin k → ℚ)
  | 0 => 0
  | j + 1 => smoothErrStep rep (N - 1 - j) (smoothErr rep N j)

/-- The smoothed state `alpha_hat_t = a_t + P_t r_{t-1}` (spec section 4.3) of the
smoothing pass over periods `0, ..., N-1`. -/
def alphaHat {k p r : ℕ} (rep : Representation k p r) (N t : ℕ) : Fin k → ℚ :=
  (predicted rep t).1 + (predicted rep t).2 *ᵥ smoothErr rep N (N - t)

/-- C5: for every representation, the smoothed state at the final period of the
smoothing pass equals the filtered state at that period:
`alpha_hat_T = a_{T|T}`. -/
theorem smoothed_final_equals_filtered {k p r : ℕ} (rep : Representation k p r)
    (N : ℕ) (hN : 0 < N) : alphaHat rep N (N - 1) = filteredA rep (N - 1) := by
  have hsub : N - (N - 1) = 1 := by omega
  unfold alphaHat
  rw [hsub]
  show (predicted rep (N - 1)).1
      + (predicted rep (N - 1)).2 *ᵥ smoothErrStep rep (N - 1 - 0) (smoothErr rep N 0)
    = filteredA rep (N - 1)
  unfold smoothErrStep filteredA batchA
  simp only [Nat.sub_zero, smoothErr, Matrix.mulVec_zero, add_zero]

/-- C5 witness: the one-period smoothing pass on `repAllMissing`. -/
theorem smoothed_final_equals_filtered_witness :
    alphaHat repAllMissing 1 0 = filteredA repAllMissing 0 :=
  smoothed_final_equals_filtered repAllMissing 1 (by decide)

/-! ### Regime-switching (Hamilton) filter, spec section 4.5

Modelled from the spec: per period the filter (a) predicts the joint probability
of `(S_{t-1}, S_t)` through the transition matrix, (b) updates it by the
conditional density of `y_t` from the regime-specific Kalman filter (an input
`dens` here; Gaussian densities are positive), and (c) renormalizes so the
probabilities sum to 1, correcting floating drift. -/

/-- Unnormalized joint weight of (previous regime `i`, current regime `j`):
predicted probability `prev i * Pm i j` times the conditional density of `y_t`
under regime `j`. -/
def hamiltonUnnorm {n : ℕ} (Pm : Matrix (Fin n) (Fin n) ℚ) (dens : Fin n → ℚ)
    (prev : Fin n → ℚ) : Matrix (Fin n) (Fin n) ℚ :=
  Matrix.of fun i j => prev i * Pm i j * dens j

/-- The normalization constant (the period's likelihood contribution). -/
def hamiltonNorm {n : ℕ} (Pm : Matrix (Fin n) (Fin n) ℚ) (dens : Fin n → ℚ)
    (prev : Fin n → ℚ) : ℚ :=
  ∑ i, ∑ j, hamiltonUnnorm Pm dens prev i j

/-- The renormalized joint regime probabilities of one Hamilton filter period. -/
def hamiltonJointStep {n : ℕ} (Pm : Matrix (Fin n) (Fin n) ℚ) (dens : Fin n → ℚ)
    (prev : Fin n → ℚ) : Matrix (Fin n) (Fin n) ℚ :=
  Matrix.of fun i j => hamiltonUnnorm Pm dens prev i j / hamiltonNorm Pm dens prev

/-- The marginal (filtered) regime probabilities of one Hamilton filter period:
the joint probabilities collapsed over the previous regime. -/
def hamiltonMargStep {n : ℕ} (Pm : Matrix (Fin n) (Fin n) ℚ) (dens : Fin n → ℚ)
    (prev : Fin n → ℚ) : Fin n → ℚ :=
  fun j => ∑ i, hamiltonJointStep Pm dens prev i j

/-- The filtered marginal regime probabilities of the Hamilton filter at each
period, starting from the initial regime distribution `init`. -/
def hamiltonMarg {n : ℕ} (Pm : Matrix (Fin n) (Fin n) ℚ) (dens : ℕ → Fin n → ℚ)
    (init : Fin n → ℚ) : ℕ → Fin n → ℚ
  | 0 => hamiltonMargStep Pm (dens 0) init
  | t + 1 => hamiltonMargStep Pm (dens (t + 1)) (hamiltonMarg Pm dens init t)

/-- The joint regime probabilities (previous regime, current regime) of the
Hamilton filter at each period. -/
def hamiltonJoint {n : ℕ} (Pm : Matrix (Fin n) (Fin n) ℚ) (dens : ℕ → Fin n → ℚ)
    (init : Fin n → ℚ) : ℕ → Matrix (Fin n) (Fin n) ℚ
  | 0 => hamiltonJointStep Pm (dens 0) init
  | t + 1 => hamiltonJointStep Pm (dens (t + 1)) (hamiltonMarg Pm dens init t)

theorem exists_pos_of_sum_one {n : ℕ} {f : Fin n → ℚ} (_h0 : ∀ i, 0 ≤ f i)
    (h1 : ∑ i, f i = 1) : ∃ i, 0 < f i := by
  by_contra hc
  push_neg at hc
  have : ∑ i, f i ≤ 0 := Finset.sum_nonpos fun i _ => hc i
  rw [h1] at this
  linarith

theorem hamilton_step_sums {n : ℕ} {Pm : Matrix (Fin n) (Fin n) ℚ} {dens : Fin n → ℚ}
    {prev : Fin n → ℚ} (hprev0 : ∀ i, 0 ≤ prev i) (hprev1 : ∑ i, prev i = 1)
    (hP0 : ∀ i j, 0 ≤ Pm i j) (hP1 : ∀ i, ∑ j, Pm i j = 1) (hd : ∀ j, 0 < dens j) :
    0 < hamiltonNorm Pm dens prev
    ∧ (∑ i, ∑ j, hamiltonJointStep Pm dens prev i j = 1)
    ∧ (∀ j, 0 ≤ hamiltonMargStep Pm dens prev j)
    ∧ (∑ j, hamiltonMargStep Pm dens prev j = 1) := by
  have hu0 : ∀ i j, 0 ≤ hamiltonUnnorm Pm dens prev i j := fun i j =>
    mul_nonneg (mul_nonneg (hprev0 i) (hP0 i j)) (le_of_lt (hd j))
  obtain ⟨i0, hi0⟩ := exists_pos_of_sum_one hprev0 hprev1
  obtain ⟨j0, hj0⟩ := exists_pos_of_sum_one (hP0 i0) (hP1 i0)
  have hc : 0 < hamiltonNorm Pm dens prev := by
    refine Finset.sum_pos' (fun i _ => Finset.sum_nonneg fun j _ => hu0 i j) ⟨i0, Finset.mem_univ _, ?_⟩
    refine Finset.sum_pos' (fun j _ => hu0 i0 j) ⟨j0, Finset.mem_univ _, ?_⟩
    exact mul_pos (mul_pos hi0 hj0) (hd j0)
  have hjoint : ∑ i, ∑ j, hamiltonJointStep Pm dens prev i j = 1 := by
    simp only [hamiltonJointStep, Matrix.of_apply, ← Finset.sum_div]
    exact div_self (ne_of_gt hc)
  refine ⟨hc, hjoint, ?_, ?_⟩
  · intro j
    exact Finset.sum_nonneg fun i _ => div_nonneg (hu0 i j) (le_of_lt hc)
  · unfold hamiltonMargStep
    rw [Finset.sum_comm]
    exact hjoint

theorem hamilton_marg_invariant {n : ℕ} {Pm : Matrix (Fin n) (Fin n) ℚ}
    {dens : ℕ → Fin n → ℚ} {init : Fin n → ℚ}
    (hinit0 : ∀ i, 0 ≤ init i) (hinit1 : ∑ i, init i = 1)
    (hP0 : ∀ i j, 0 ≤ Pm i j) (hP1 : ∀ i, ∑ j, Pm i j = 1)
    (hdens : ∀ t j, 0 < dens t j) :
    ∀ t, (∀ j, 0 ≤ hamiltonMarg Pm dens init t j)
      ∧ (∑ j, hamiltonMarg Pm dens init t j = 1) := by
  intro t
  induction t with
  | zero =>
    have h := hamilton_step_sums hinit0 hinit1 hP0 hP1 (hdens 0)
    exact ⟨h.2.2.1, h.2.2.2⟩
  | succ t ih =>
    have h := hamilton_step_sums ih.1 ih.2 hP0 hP1 (hdens (t + 1))
    exact ⟨h.2.2.1, h.2.2.2⟩

/-- C6: for every valid transition probability matrix (nonnegative entries, rows
summing to 1), every valid initial regime distribution, and positive conditional
densities, the marginal regime probability vector produced by the Hamilton filter
sums to 1 at every period (the renormalization corrects drift), and so do the
joint regime probabilities. -/
theorem regime_probabilities_sum_to_one {n : ℕ} (Pm : Matrix (Fin n) (Fin n) ℚ)
    (dens : ℕ → Fin n → ℚ) (init : Fin n → ℚ)
    (hinit0 : ∀ i, 0 ≤ init i) (hinit1 : ∑ i, init i = 1)
    (hP0 : ∀ i j, 0 ≤ Pm i j) (hP1 : ∀ i, ∑ j, Pm i j = 1)
    (hdens : ∀ t j, 0 < dens t j) :
    ∀ t, (∑ j, hamiltonMarg Pm dens init t j = 1)
      ∧ (∑ i, ∑ j, hamiltonJoint Pm dens init t i j = 1) := by
  intro t
  cases t with
  | zero => exact ⟨(hamilton_marg_invariant hinit0 hinit1 hP0 hP1 hdens 0).2,
      (hamilton_step_sums hinit0 hinit1 hP0 hP1 (hdens 0)).2.1⟩
  | succ t =>
    have ih := hamilton_marg_invariant hinit0 hinit1 hP0 hP1 hdens t
    exact ⟨(hamilton_marg_invariant hinit0 hinit1 hP0 hP1 hdens (t + 1)).2,
      (hamilton_step_sums ih.1 ih.2 hP0 hP1 (hdens (t + 1))).2.1⟩

/-- C6 witness: a two-regime chain with uniform transition matrix, uniform initial
distribution and unit densities, at period 3. -/
theorem regime_probabilities_sum_to_one_witness :
    (∑ j, hamiltonMarg (Matrix.of ![![(1:ℚ)/2, 1/2], ![1/2, 1/2]]) (fun _ _ => 1)
        ![(1:ℚ)/2, 1/2] 3 j = 1)
    ∧ (∑ i, ∑ j, hamiltonJoint (Matrix.of ![![(1:ℚ)/2, 1/2], ![1/2, 1/2]]) (fun _ _ => 1)
        ![(1:ℚ)/2, 1/2] 3 i j = 1) := by
  refine regime_probabilities_sum_to_one _ _ _ ?_ ?_ ?_ ?_ ?_ 3
  · intro i
    fin_cases i <;> norm_num
  · simp [Fin.sum_univ_two]
    norm_num
  · intro i j
    fin_cases i <;> fin_cases j <;> norm_num
  · intro i
    fin_cases i <;> simp [Fin.sum_univ_two] <;> norm_num
  · intro t j
    norm_num

/-! ### Error handling (spec section 7)

Modelled from the spec: a detected non-positive-definite `F_t` (the covariance
factorization fails mid-recursion) signals the distinct
`NonPositiveDefiniteError`; the caller (optimizer) treats such a parameter point
as rejected with log-likelihood −∞, and likelihood accumulation clamps to −∞
(the bottom element) rather than producing an invalid value. -/

/-- The spec's error taxonomy (section 7). -/
inductive KalmanError
  | dimensionError
  | nonPositiveDefinite
  | missingDataError
deriving DecidableEq

/-- A symmetric matrix has a successful Cholesky factorization (is positive
definite) iff all its leading principal minors are positive; this decidable
predicate is the model of the factorization succeeding. -/
def leadingMinorsPos {ι : Type} [Fintype ι] [DecidableEq ι] [LinearOrder ι]
    (A : Matrix ι ι ℚ) : Prop :=
  ∀ i : ι, 0 < (A.submatrix (fun j : {j : ι // j ≤ i} => j.1) (fun j => j.1)).det

instance {ι : Type} [Fintype ι] [DecidableEq ι] [LinearOrder ι] (A : Matrix ι ι ℚ) :
    Decidable (leadingMinorsPos A) :=
  Fintype.decidableForallFintype

/-- The Kalman filter recursion with the factorization check: it advances the
predicted state/covariance pair period by period, and signals
`nonPositiveDefinite` as soon as a period's `F_t` fails the factorization
check, instead of crashing. -/
def runChecked {k p r : ℕ} (rep : Representation k p r) :
    ℕ → Except KalmanError ((Fin k → ℚ) × Matrix (Fin k) (Fin k) ℚ)
  | 0 => .ok (rep.a1, rep.P1)
  | t + 1 =>
    (runChecked rep t).bind fun s =>
      if leadingMinorsPos (batchF s.2 (obsData rep t)) then
        .ok (predStep rep t (batchA s.1 s.2 (obsData rep t)) (batchP s.2 (obsData rep t)))
      else .error .nonPositiveDefinite

/-- The caller's (optimizer's) view of a filter outcome: a rejected parameter
point (any signaled error) is the log-likelihood −∞ (the bottom element), a
successful run yields its finite log-likelihood value `q`. -/
def rejectToNegInf {α : Type} (q : α → ℚ) : Except KalmanError α → WithBot ℚ
  | .error _ => ⊥
  | .ok x => ↑(q x)

/-- Likelihood accumulation over per-period contributions in `WithBot ℚ`:
a contribution that has underflowed/overflowed to −∞ (⊥) clamps the whole
accumulated value to −∞ rather than producing an invalid value. -/
def accumLoglik (contribs : List (WithBot ℚ)) : WithBot ℚ :=
  contribs.foldl (· + ·) (0 : WithBot ℚ)

theorem runChecked_error_succ {k p r : ℕ} (rep : Representation k p r) (N : ℕ)
    (e : KalmanError) (h : runChecked rep N = .error e) :
    runChecked rep (N + 1) = .error e := by
  show (runChecked rep N).bind _ = .error e
  rw [h]
  rfl

theorem accumLoglik_aux_bot (l : List (WithBot ℚ)) :
    l.foldl (· + ·) (⊥ : WithBot ℚ) = ⊥ := by
  induction l with
  | nil => rfl
  | cons x xs ih =>
    show xs.foldl (· + ·) ((⊥ : WithBot ℚ) + x) = ⊥
    rw [WithBot.bot_add]
    exact ih

theorem accumLoglik_aux_mem (l : List (WithBot ℚ)) :
    ∀ init : WithBot ℚ, ⊥ ∈ l → l.foldl (· + ·) init = ⊥ := by
  induction l with
  | nil => intro init h; cases h
  | cons x xs ih =>
    intro init h
    rcases List.mem_cons.mp h with rfl | hx
    · show xs.foldl (· + ·) (init + ⊥) = ⊥
      rw [WithBot.add_bot]
      exact accumLoglik_aux_bot xs
    · exact ih (init + x) hx

/-- C8: every error the checked filter signals is the distinct
`nonPositiveDefinite` error; whenever a period's `F_t` fails the factorization
check mid-recursion the filter signals it (it does not crash or produce an
invalid value); the caller maps any signaled error to log-likelihood −∞; and
likelihood accumulation containing a −∞ contribution is clamped to −∞. -/
theorem nonposdef_signals_distinct_error {k p r : ℕ} (rep : Representation k p r) :
    (∀ N e, runChecked rep N = .error e → e = KalmanError.nonPositiveDefinite)
    ∧ (∀ N t s, t < N → runChecked rep t = .ok s →
        ¬ leadingMinorsPos (batchF s.2 (obsData rep t)) →
        runChecked rep N = .error KalmanError.nonPositiveDefinite)
    ∧ (∀ N (q : (Fin k → ℚ) × Matrix (Fin k) (Fin k) ℚ → ℚ) e,
        runChecked rep N = .error e → rejectToNegInf q (runChecked rep N) = ⊥)
    ∧ (∀ l : List (WithBot ℚ), ⊥ ∈ l → accumLoglik l = ⊥) := by
  refine ⟨?_, ?_, ?_, ?_⟩
  · intro N
    induction N with
    | zero => intro e h; exact absurd h (by simp [runChecked])
    | succ N ih =>
      intro e h
      rw [show runChecked rep (N + 1) = (runChecked rep N).bind _ from rfl] at h
      cases hN : runChecked rep N with
      | error e' =>
        rw [hN] at h
        simp only [Except.bind] at h
        cases h
        exact ih _ hN
      | ok s =>
        rw [hN] at h
        simp only [Except.bind] at h
        by_cases hc : leadingMinorsPos (batchF s.2 (obsData rep N))
        · rw [if_pos hc] at h
          exact absurd h (by simp)
        · rw [if_neg hc] at h
          cases h
          rfl
  · intro N
    induction N with
    | zero => intro t s ht; omega
    | succ N ih =>
      intro t s ht hok hfail
      rcases Nat.lt_succ_iff_lt_or_eq.mp ht with ht' | rfl
      · exact runChecked_error_succ rep N _ (ih t s ht' hok hfail)
      · show (runChecked rep t).bind _ = _
        rw [hok]
        simp only [Except.bind]
        rw [if_neg hfail]
  · intro N q e h
    rw [h]
    rfl
  · intro l hl
    exact accumLoglik_aux_mem l 0 hl

/-- A concrete one-dimensional representation with an invalid observation
covariance `H = -1` (and `P1 = 0`), so that `F_0 = -1` fails the factorization
check at the first period. -/
def repNPD : Representation 1 1 1 :=
  ⟨fun _ => Matrix.of fun _ _ => 1, fun _ _ => 0, fun _ => Matrix.of fun _ _ => -1,
   fun _ => Matrix.of fun _ _ => 1, fun _ _ => 0, fun _ => Matrix.of fun _ _ => 1,
   fun _ => Matrix.of fun _ _ => 1, fun _ => 0, 0,
   fun _ _ => 0, fun _ _ => false⟩

theorem repNPD_check_fails :
    ¬ leadingMinorsPos (batchF (repNPD.a1, repNPD.P1).2 (obsData repNPD 0)) := by
  intro hlm
  have h := hlm ⟨0, rfl⟩
  haveI hu : Unique {j : ObsIdx (repNPD.missing 0) // j ≤ (⟨0, rfl⟩ : ObsIdx (repNPD.missing 0))} :=
    ⟨⟨⟨⟨0, by omega⟩, rfl⟩, le_refl _⟩,
     fun a => Subtype.ext (Subtype.ext (Subsingleton.elim _ _))⟩
  rw [Matrix.det_unique] at h
  simp only [Matrix.submatrix_apply, batchF, repNPD, Matrix.mul_zero, Matrix.zero_mul,
    zero_add, obsData, Matrix.of_apply] at h
  norm_num at h

/-- C8 witness: the filter on `repNPD` signals `nonPositiveDefinite` at the first
period, the caller receives −∞, and an accumulation containing −∞ is −∞. -/
theorem nonposdef_signals_distinct_error_witness :
    runChecked repNPD 1 = .error KalmanError.nonPositiveDefinite
    ∧ rejectToNegInf (fun _ => 0) (runChecked repNPD 1) = ⊥
    ∧ accumLoglik [⊥, (0 : WithBot ℚ)] = ⊥ := by
  have herr : runChecked repNPD 1 = .error KalmanError.nonPositiveDefinite :=
    (nonposdef_signals_distinct_error repNPD).2.1 1 0 (repNPD.a1, repNPD.P1)
      (by decide) rfl repNPD_check_fails
  exact ⟨herr,
    (nonposdef_signals_distinct_error repNPD).2.2.1 1 (fun _ => 0) _ herr,
    (nonposdef_signals_distinct_error repNPD).2.2.2 [⊥, (0 : WithBot ℚ)] (by simp)⟩

/-! ### Filter method variants (spec sections 4.2, 8)

The three filter methods share one contract and differ only in the internal
numerical path: *conventional* forms `F⁻¹` explicitly (the `predicted` /
`filteredA` / `filteredP` recursion above, with the adjugate-based inverse
`qInv`); *inversion-optimized* never forms `F⁻¹` but solves the linear systems
`F x = v` and `F G = Z P` (here by Cramer's rule, a per-component determinant
ratio); *univariate* decomposes each period's observation vector into scalar
updates processed sequentially (for diagonal `H_t`), avoiding matrix inversion
altogether. -/

/-- The data determining a period's log-likelihood contribution
`-0.5 (nobs log 2π + log detF + quad)` (spec section 4.2, step 3); it is exact,
so equality of this data is equality of the log-likelihood. -/
structure LLData where
  nobs : ℕ
  detF : ℚ
  quad : ℚ
deriving DecidableEq

/-- The conventional method's per-period log-likelihood data. -/
def llConv {k p r : ℕ} (rep : Representation k p r) (t : ℕ) : LLData :=
  ⟨Fintype.card (ObsIdx (rep.missing t)),
   batchDet (predicted rep t).2 (obsData rep t),
   batchQuad (predicted rep t).1 (predicted rep t).2 (obsData rep t)⟩

/-- Cramer's rule solve of the linear system `A x = b`: each component is a
determinant ratio, no inverse matrix is formed. -/
def cramerSolve {ι : Type} [Fintype ι] [DecidableEq ι] (A : Matrix ι ι ℚ)
    (b : ι → ℚ) : ι → ℚ :=
  (A.det)⁻¹ • A.cramer b

/-- Column-wise Cramer solve of the matrix system `A X = M`. -/
def cramerSolveMat {ι κ : Type} [Fintype ι] [DecidableEq ι] (A : Matrix ι ι ℚ)
    (M : Matrix ι κ ℚ) : Matrix ι κ ℚ :=
  Matrix.of fun i j => cramerSolve A (fun l => M l j) i

theorem cramerSolve_eq {ι : Type} [Fintype ι] [DecidableEq ι] (A : Matrix ι ι ℚ)
    (b : ι → ℚ) : cramerSolve A b = qInv A *ᵥ b := by
  unfold cramerSolve qInv
  rw [Matrix.smul_mulVec_assoc, ← Matrix.cramer_eq_adjugate_mulVec]

theorem cramerSolveMat_eq {ι κ : Type} [Fintype ι] [DecidableEq ι] [Fintype κ]
    (A : Matrix ι ι ℚ) (M : Matrix ι κ ℚ) : cramerSolveMat A M = qInv A * M := by
  ext i j
  have h := congrFun (cramerSolve_eq A (fun l => M l j)) i
  simpa [cramerSolveMat, Matrix.mulVec, Matrix.mul_apply, dotProduct] using h

/-- The inversion-optimized filtered state: solves `F x = v` instead of forming
`F⁻¹` (spec section 4.2). -/
def batchAInv {ι : Type} [Fintype ι] [DecidableEq ι] {k : ℕ} (a : Fin k → ℚ)
    (P : Matrix (Fin k) (Fin k) ℚ) (B : BatchObs ι k) : Fin k → ℚ :=
  a + P *ᵥ (B.Zᵀ *ᵥ cramerSolve (batchF P B) (batchV a B))

/-- The inversion-optimized filtered covariance: solves `F G = Z P` column-wise
instead of forming `F⁻¹`. -/
def batchPInv {ι : Type} [Fintype ι] [DecidableEq ι] {k : ℕ}
    (P : Matrix (Fin k) (Fin k) ℚ) (B : BatchObs ι k) : Matrix (Fin k) (Fin k) ℚ :=
  P - P * B.Zᵀ * cramerSolveMat (batchF P B) (B.Z * P)

/-- The inversion-optimized quadratic form `vᵀ x` with `x` the solution of
`F x = v`. -/
def batchQuadInv {ι : Type} [Fintype ι] [DecidableEq ι] {k : ℕ} (a : Fin k → ℚ)
    (P : Matrix (Fin k) (Fin k) ℚ) (B : BatchObs ι k) : ℚ :=
  batchV a B ⬝ᵥ cramerSolve (batchF P B) (batchV a B)

theorem batchAInv_eq {ι : Type} [Fintype ι] [DecidableEq ι] {k : ℕ} (a : Fin k → ℚ)
    (P : Matrix (Fin k) (Fin k) ℚ) (B : BatchObs ι k) :
    batchAInv a P B = batchA a P B := by
  rw [batchAInv, batchA, cramerSolve_eq]

theorem batchPInv_eq {ι : Type} [Fintype ι] [DecidableEq ι] {k : ℕ}
    (P : Matrix (Fin k) (Fin k) ℚ) (B : BatchObs ι k) :
    batchPInv P B = batchP P B := by
  rw [batchPInv, batchP, cramerSolveMat_eq]
  simp [Matrix.mul_assoc]

theorem batchQuadInv_eq {ι : Type} [Fintype ι] [DecidableEq ι] {k : ℕ} (a : Fin k → ℚ)
    (P : Matrix (Fin k) (Fin k) ℚ) (B : BatchObs ι k) :
    batchQuadInv a P B = batchQuad a P B := by
  rw [batchQuadInv, batchQuad, cramerSolve_eq]

/-- The inversion-optimized filter recursion (predicted state and covariance). -/
def predictedInv {k p r : ℕ} (rep : Representation k p r) :
    ℕ → (Fin k → ℚ) × Matrix (Fin k) (Fin k) ℚ
  | 0 => (rep.a1, rep.P1)
  | t + 1 =>
    let s := predictedInv rep t
    predStep rep t (batchAInv s.1 s.2 (obsData rep t)) (batchPInv s.2 (obsData rep t))

/-- The inversion-optimized method's per-period log-likelihood data. -/
def llInv {k p r : ℕ} (rep : Representation k p r) (t : ℕ) : LLData :=
  ⟨Fintype.card (ObsIdx (rep.missing t)),
   batchDet (predictedInv rep t).2 (obsData rep t),
   batchQuadInv (predictedInv rep t).1 (predictedInv rep t).2 (obsData rep t)⟩

theorem predictedInv_eq {k p r : ℕ} (rep : Representation k p r) (t : ℕ) :
    predictedInv rep t = predicted rep t := by
  induction t with
  | zero => rfl
  | succ t ih =>
    show predStep rep t _ _ = predStep rep t _ _
    rw [ih, batchAInv_eq, batchPInv_eq]

theorem llInv_eq_llConv {k p r : ℕ} (rep : Representation k p r) (t : ℕ) :
    llInv rep t = llConv rep t := by
  unfold llInv llConv
  rw [predictedInv_eq, batchQuadInv_eq]

/-! ### The univariate method (spec section 4.2): sequential scalar updates -/

/-- A single scalar observation row processed by the univariate method: design
row `z`, observation variance `h` (a diagonal entry of `H_t`), observation `yv`
and observation intercept `dv`. -/
structure ScalarObs (k : ℕ) where
  z : Fin k → ℚ
  h : ℚ
  yv : ℚ
  dv : ℚ

/-- Scalar forecast-error variance `f = zᵀ P z + h`. -/
def scalarF {k : ℕ} (P : Matrix (Fin k) (Fin k) ℚ) (o : ScalarObs k) : ℚ :=
  o.z ⬝ᵥ (P *ᵥ o.z) + o.h

/-- Scalar forecast error `v = y - zᵀ a - d`. -/
def scalarV {k : ℕ} (a : Fin k → ℚ) (o : ScalarObs k) : ℚ :=
  o.yv - o.z ⬝ᵥ a - o.dv

/-- One scalar update of the univariate method: no matrix inversion, only the
scalar division by `f`. -/
def scalarStep {k : ℕ} (s : (Fin k → ℚ) × Matrix (Fin k) (Fin k) ℚ)
    (o : ScalarObs k) : (Fin k → ℚ) × Matrix (Fin k) (Fin k) ℚ :=
  (s.1 + (scalarV s.1 o / scalarF s.2 o) • (s.2 *ᵥ o.z),
   s.2 - (scalarF s.2 o)⁻¹ • vecMulVec (s.2 *ᵥ o.z) (o.z ᵥ* s.2))

/-- The univariate method's state after sequentially processing a list of scalar
observations. -/
def seqAP {k : ℕ} (s : (Fin k → ℚ) × Matrix (Fin k) (Fin k) ℚ) :
    List (ScalarObs k) → (Fin k → ℚ) × Matrix (Fin k) (Fin k) ℚ
  | [] => s
  | o :: os => seqAP (scalarStep s o) os

/-- The product of the scalar forecast-error variances along the sequential
updates (the univariate method's `|F_t|`: `log |F_t| = ∑ log f_i`). -/
def seqDet {k : ℕ} (s : (Fin k → ℚ) × Matrix (Fin k) (Fin k) ℚ) :
    List (ScalarObs k) → ℚ
  | [] => 1
  | o :: os => scalarF s.2 o * seqDet (scalarStep s o) os

/-- The sum of the scalar quadratic contributions `v_i² / f_i` along the
sequential updates (the univariate method's `vᵀ F⁻¹ v`). -/
def seqQuad {k : ℕ} (s : (Fin k → ℚ) × Matrix (Fin k) (Fin k) ℚ) :
    List (ScalarObs k) → ℚ
  | [] => 0
  | o :: os => scalarV s.1 o ^ 2 / scalarF s.2 o + seqQuad (scalarStep s o) os

/-- Nondegeneracy of the sequential updates: every scalar forecast-error
variance along the run is nonzero (for a valid representation they are positive;
nonzero suffices for the method equivalence). -/
def seqOk {k : ℕ} (s : (Fin k → ℚ) × Matrix (Fin k) (Fin k) ℚ) :
    List (ScalarObs k) → Prop
  | [] => True
  | o :: os => scalarF s.2 o ≠ 0 ∧ seqOk (scalarStep s o) os

theorem transpose_vecMulVec {k : ℕ} (w u : Fin k → ℚ) :
    (vecMulVec w u)ᵀ = vecMulVec u w := by
  ext i j
  simp [Matrix.vecMulVec_apply, mul_comm]

theorem vecMul_eq_mulVec_of_symm {k : ℕ} {P : Matrix (Fin k) (Fin k) ℚ}
    (hP : Pᵀ = P) (z : Fin k → ℚ) : z ᵥ* P = P *ᵥ z := by
  rw [← hP, Matrix.vecMul_transpose, hP]

theorem scalarStep_symm {k : ℕ} {s : (Fin k → ℚ) × Matrix (Fin k) (Fin k) ℚ}
    (hP : s.2ᵀ = s.2) (o : ScalarObs k) :
    (scalarStep s o).2ᵀ = (scalarStep s o).2 := by
  show (s.2 - (scalarF s.2 o)⁻¹ • vecMulVec (s.2 *ᵥ o.z) (o.z ᵥ* s.2))ᵀ
      = s.2 - (scalarF s.2 o)⁻¹ • vecMulVec (s.2 *ᵥ o.z) (o.z ᵥ* s.2)
  rw [vecMul_eq_mulVec_of_symm hP o.z, Matrix.transpose_sub, Matrix.transpose_smul,
    transpose_vecMulVec, hP]

theorem seqDet_ne_zero {k : ℕ} {s : (Fin k → ℚ) × Matrix (Fin k) (Fin k) ℚ}
    {l : List (ScalarObs k)} (h : seqOk s l) : seqDet s l ≠ 0 := by
  induction l generalizing s with
  | nil => exact one_ne_zero
  | cons o os ih =>
    obtain ⟨h0, hrest⟩ := h
    exact mul_ne_zero h0 (ih hrest)

/-! ### Reindexing invariance of the batch update -/

/-- Reindexing of a period's observation data along an equivalence of index
types. -/
def BatchObs.reindex {ι κ : Type} {k : ℕ} (e : ι ≃ κ) (B : BatchObs κ k) :
    BatchObs ι k :=
  ⟨B.Z.submatrix e id, B.H.submatrix e e, B.y ∘ e, B.d ∘ e⟩

theorem batchF_reindex {ι κ : Type} [Fintype ι] [Fintype κ] {k : ℕ}
    (e : ι ≃ κ) (P : Matrix (Fin k) (Fin k) ℚ) (B : BatchObs κ k) :
    batchF P (B.reindex e) = (batchF P B).submatrix e e := by
  ext i j
  simp [batchF, BatchObs.reindex, Matrix.mul_apply]

theorem batchV_reindex {ι κ : Type} [Fintype ι] [Fintype κ] {k : ℕ}
    (e : ι ≃ κ) (a : Fin k → ℚ) (B : BatchObs κ k) :
    batchV a (B.reindex e) = (batchV a B) ∘ e := by
  funext i
  simp [batchV, BatchObs.reindex, Matrix.mulVec, dotProduct]

theorem qInv_submatrix {ι κ : Type} [Fintype ι] [Fintype κ] [DecidableEq ι]
    [DecidableEq κ] (e : ι ≃ κ) (A : Matrix κ κ ℚ) :
    qInv (A.submatrix e e) = (qInv A).submatrix e e := by
  unfold qInv
  rw [Matrix.det_submatrix_equiv_self, Matrix.adjugate_submatrix_equiv_self]
  ext i j
  simp

theorem mulVec_submatrix_equiv_right {ι κ τ : Type} [Fintype ι] [Fintype κ]
    (e : ι ≃ κ) (A : Matrix τ κ ℚ) (x : κ → ℚ) :
    (A.submatrix id e) *ᵥ (x ∘ e) = A *ᵥ x := by
  funext j
  show ∑ l, A j (e l) * x (e l) = ∑ l, A j l * x l
  exact Equiv.sum_comp e fun l => A j l * x l

theorem mulVec_submatrix_equiv_both {ι κ τ : Type} [Fintype ι] [Fintype κ]
    (e : ι ≃ κ) (f : ι → τ) (A : Matrix τ κ ℚ) (x : κ → ℚ) :
    (A.submatrix f e) *ᵥ (x ∘ e) = (A *ᵥ x) ∘ f := by
  funext j
  show ∑ l, A (f j) (e l) * x (e l) = ∑ l, A (f j) l * x l
  exact Equiv.sum_comp e fun l => A (f j) l * x l

theorem mul_submatrix_equiv_mid {ι κ τ τ' : Type} [Fintype ι] [Fintype κ]
    (e : ι ≃ κ) (M : Matrix τ κ ℚ) (N : Matrix κ τ' ℚ) (g : ι → τ') :
    (M.submatrix id e) * (N.submatrix e g) = (M * N).submatrix id g := by
  ext i j
  show ∑ l, M i (e l) * N (e l) (g j) = _
  rw [Equiv.sum_comp e fun l => M i l * N l (g j)]
  rfl

theorem batchA_reindex {ι κ : Type} [Fintype ι] [Fintype κ] [DecidableEq ι]
    [DecidableEq κ] {k : ℕ} (e : ι ≃ κ) (a : Fin k → ℚ)
    (P : Matrix (Fin k) (Fin k) ℚ) (B : BatchObs κ k) :
    batchA a P (B.reindex e) = batchA a P B := by
  unfold batchA
  rw [batchF_reindex, batchV_reindex, qInv_submatrix]
  have h1 : ((qInv (batchF P B)).submatrix ⇑e ⇑e) *ᵥ ((batchV a B) ∘ ⇑e)
      = (qInv (batchF P B) *ᵥ batchV a B) ∘ ⇑e :=
    mulVec_submatrix_equiv_both e ⇑e _ _
  have h2 : (B.Zᵀ.submatrix id ⇑e) *ᵥ ((qInv (batchF P B) *ᵥ batchV a B) ∘ ⇑e)
      = B.Zᵀ *ᵥ (qInv (batchF P B) *ᵥ batchV a B) :=
    mulVec_submatrix_equiv_right e B.Zᵀ _
  rw [show ((B.reindex e).Z)ᵀ = B.Zᵀ.submatrix id ⇑e from rfl, h1, h2]

theorem batchP_reindex {ι κ : Type} [Fintype ι] [Fintype κ] [DecidableEq ι]
    [DecidableEq κ] {k : ℕ} (e : ι ≃ κ) (P : Matrix (Fin k) (Fin k) ℚ)
    (B : BatchObs κ k) :
    batchP P (B.reindex e) = batchP P B := by
  unfold batchP
  rw [batchF_reindex, qInv_submatrix]
  have hPZ : P * ((B.reindex e).Z)ᵀ = (P * B.Zᵀ).submatrix id ⇑e := by
    ext i j
    simp [BatchObs.reindex, Matrix.mul_apply]
  rw [hPZ, show (B.reindex e).Z = B.Z.submatrix ⇑e id from rfl]
  rw [mul_submatrix_equiv_mid e (P * B.Zᵀ) (qInv (batchF P B)) ⇑e]
  have h3 : (P * B.Zᵀ * qInv (batchF P B)).submatrix id ⇑e * B.Z.submatrix ⇑e id
      = P * B.Zᵀ * qInv (batchF P B) * B.Z := by
    ext i j
    rw [Matrix.mul_apply, Matrix.mul_apply]
    simp only [Matrix.submatrix_apply, id_eq]
    exact Equiv.sum_comp e fun l => (P * B.Zᵀ * qInv (batchF P B)) i l * B.Z l j
  rw [h3]

theorem batchDet_reindex {ι κ : Type} [Fintype ι] [Fintype κ] [DecidableEq ι]
    [DecidableEq κ] {k : ℕ} (e : ι ≃ κ) (P : Matrix (Fin k) (Fin k) ℚ)
    (B : BatchObs κ k) :
    batchDet P (B.reindex e) = batchDet P B := by
  unfold batchDet
  rw [batchF_reindex, Matrix.det_submatrix_equiv_self]

theorem batchQuad_reindex {ι κ : Type} [Fintype ι] [Fintype κ] [DecidableEq ι]
    [DecidableEq κ] {k : ℕ} (e : ι ≃ κ) (a : Fin k → ℚ)
    (P : Matrix (Fin k) (Fin k) ℚ) (B : BatchObs κ k) :
    batchQuad a P (B.reindex e) = batchQuad a P B := by
  unfold batchQuad
  rw [batchF_reindex, batchV_reindex, qInv_submatrix,
    mulVec_submatrix_equiv_both e ⇑e _ _]
  show ∑ l, (batchV a B) (e l) * (qInv (batchF P B) *ᵥ batchV a B) (e l) = _
  exact Equiv.sum_comp e fun l => (batchV a B) l * (qInv (batchF P B) *ᵥ batchV a B) l

/-! ### One-step peeling of the batch update (univariate ≡ batch, single row)

The batch update over an index type `PUnit ⊕ κ` is related to the scalar update
on the `PUnit` row followed by the batch update on `κ` at the updated state: the
Schur complement of the scalar forecast variance in `F` is exactly the tail's
forecast covariance after the scalar update. -/

theorem puMat_mul {τ : Type} [Fintype τ] (x : ℚ) (M : Matrix PUnit τ ℚ) :
    (Matrix.of fun _ _ : PUnit => x) * M = x • M := by
  ext i j
  simp [Matrix.mul_apply, Finset.univ_unique]

theorem mul_puMat {τ : Type} [Fintype τ] (x : ℚ) (M : Matrix τ PUnit ℚ) :
    M * (Matrix.of fun _ _ : PUnit => x) = x • M := by
  ext i j
  simp [Matrix.mul_apply, Finset.univ_unique, mul_comm]

theorem puMat_mulVec (x : ℚ) (g : PUnit → ℚ) :
    (Matrix.of fun _ _ : PUnit => x) *ᵥ g = fun _ => x * g PUnit.unit := by
  funext i
  show ∑ u : PUnit, x * g u = x * g PUnit.unit
  rw [Finset.univ_unique, Finset.sum_singleton]

theorem col_mulVec_punit {k : ℕ} (c : Fin k → ℚ) (g : PUnit → ℚ) :
    Matrix.col PUnit c *ᵥ g = g PUnit.unit • c := by
  funext j
  show ∑ u : PUnit, c j * g u = g PUnit.unit * c j
  rw [Finset.univ_unique, Finset.sum_singleton]
  exact mul_comm _ _

theorem col_mulVec_punit' {κ : Type} [Fintype κ] (c : κ → ℚ) (g : PUnit → ℚ) :
    Matrix.col PUnit c *ᵥ g = g PUnit.unit • c := by
  funext j
  show ∑ u : PUnit, c j * g u = g PUnit.unit * c j
  rw [Finset.univ_unique, Finset.sum_singleton]
  exact mul_comm _ _

theorem vecMulVec_mulVec {κ τ : Type} [Fintype τ] (c : κ → ℚ) (d : τ → ℚ)
    (u : τ → ℚ) : vecMulVec c d *ᵥ u = (d ⬝ᵥ u) • c := by
  funext j
  show ∑ l, c j * d l * u l = (∑ l, d l * u l) * c j
  rw [Finset.sum_mul]
  refine Finset.sum_congr rfl fun l _ => ?_
  ring

theorem mul_vecMulVec_left {α β τ : Type} [Fintype α]
    (M : Matrix τ α ℚ) (w : α → ℚ) (x : β → ℚ) :
    M * vecMulVec w x = vecMulVec (M *ᵥ w) x := by
  rw [Matrix.vecMulVec_eq (PUnit : Type), Matrix.vecMulVec_eq (PUnit : Type),
    ← Matrix.mul_assoc, Matrix.col_mulVec]

theorem vecMulVec_mul_right {α β τ : Type} [Fintype β]
    (w : α → ℚ) (x : β → ℚ) (M : Matrix β τ ℚ) :
    vecMulVec w x * M = vecMulVec w (x ᵥ* M) := by
  rw [Matrix.vecMulVec_eq (PUnit : Type), Matrix.vecMulVec_eq (PUnit : Type),
    Matrix.mul_assoc, Matrix.row_vecMul]

theorem vecMulVec_sub_right {κ τ : Type} (w : κ → ℚ) (x y : τ → ℚ) :
    vecMulVec w (x - y) = vecMulVec w x - vecMulVec w y := by
  ext i j
  show w i * (x j - y j) = w i * x j - w i * y j
  ring

theorem sum_elim_dot_sum_elim {κ : Type} [Fintype κ] (x₀ y₀ : ℚ) (xr yr : κ → ℚ) :
    (Sum.elim (fun _ : PUnit => x₀) xr) ⬝ᵥ (Sum.elim (fun _ : PUnit => y₀) yr)
      = x₀ * y₀ + xr ⬝ᵥ yr := by
  show ∑ i : PUnit ⊕ κ, _ = _
  rw [Fintype.sum_sum_type]
  congr 1
  rw [Finset.univ_unique, Finset.sum_singleton]
  rfl

/-- The observation data of a period whose rows are split into a head scalar row
(indexed by `PUnit`) and tail rows (indexed by `κ`), with diagonal `H`. -/
def sumObs {κ : Type} [DecidableEq κ] {k : ℕ} (z₀ : Fin k → ℚ) (h₀ y₀ d₀ : ℚ)
    (Zr : Matrix κ (Fin k) ℚ) (hdr yr dr : κ → ℚ) : BatchObs (PUnit ⊕ κ) k :=
  ⟨Matrix.fromRows (Matrix.row PUnit z₀) Zr,
   Matrix.diagonal (Sum.elim (fun _ => h₀) hdr),
   Sum.elim (fun _ => y₀) yr,
   Sum.elim (fun _ => d₀) dr⟩

/-- The tail observation data (diagonal `H`). -/
def tailObs {κ : Type} [DecidableEq κ] {k : ℕ} (Zr : Matrix κ (Fin k) ℚ) (hdr yr dr : κ → ℚ) :
    BatchObs κ k :=
  ⟨Zr, Matrix.diagonal hdr, yr, dr⟩

/-- The head scalar observation. -/
def headObs {k : ℕ} (z₀ : Fin k → ℚ) (h₀ y₀ d₀ : ℚ) : ScalarObs k :=
  ⟨z₀, h₀, y₀, d₀⟩

theorem sumObs_batchF_decomp {κ : Type} [Fintype κ] [DecidableEq κ] {k : ℕ}
    (P : Matrix (Fin k) (Fin k) ℚ) (z₀ : Fin k → ℚ) (h₀ y₀ d₀ : ℚ)
    (Zr : Matrix κ (Fin k) ℚ) (hdr yr dr : κ → ℚ) (hP : Pᵀ = P) :
    batchF P (sumObs z₀ h₀ y₀ d₀ Zr hdr yr dr)
      = Matrix.fromBlocks
          (Matrix.of fun _ _ => scalarF P (headObs z₀ h₀ y₀ d₀))
          (Matrix.row PUnit (Zr *ᵥ (P *ᵥ z₀)))
          (Matrix.col PUnit (Zr *ᵥ (P *ᵥ z₀)))
          (batchF P (tailObs Zr hdr yr dr)) := by
  simp only [batchF, sumObs, tailObs]
  rw [Matrix.fromRows_mul, Matrix.transpose_fromRows, Matrix.transpose_row,
    Matrix.fromRows_mul_fromColumns, ← Matrix.fromBlocks_diagonal,
    Matrix.fromBlocks_add]
  have hrow : Matrix.row PUnit z₀ * P = Matrix.row PUnit (z₀ ᵥ* P) :=
    (Matrix.row_vecMul P z₀).symm
  have h11 : Matrix.row PUnit z₀ * P * Matrix.col PUnit z₀
        + Matrix.diagonal (fun _ : PUnit => h₀)
      = Matrix.of fun _ _ => scalarF P (headObs z₀ h₀ y₀ d₀) := by
    rw [hrow, Matrix.row_mul_col]
    ext i j
    show (z₀ ᵥ* P) ⬝ᵥ z₀ + Matrix.diagonal (fun _ : PUnit => h₀) i j = _
    rcases i with ⟨⟩
    rcases j with ⟨⟩
    rw [Matrix.diagonal_apply_eq]
    show (z₀ ᵥ* P) ⬝ᵥ z₀ + h₀ = z₀ ⬝ᵥ (P *ᵥ z₀) + h₀
    rw [← Matrix.dotProduct_mulVec]
  have h12 : Matrix.row PUnit z₀ * P * Zrᵀ + 0
      = Matrix.row PUnit (Zr *ᵥ (P *ᵥ z₀)) := by
    rw [add_zero, hrow, ← Matrix.row_vecMul, Matrix.vecMul_transpose,
      vecMul_eq_mulVec_of_symm hP]
  have h21 : Zr * P * Matrix.col PUnit z₀ + 0
      = Matrix.col PUnit (Zr *ᵥ (P *ᵥ z₀)) := by
    rw [add_zero, ← Matrix.col_mulVec, ← Matrix.mulVec_mulVec]
  have h22 : Zr * P * Zrᵀ + Matrix.diagonal hdr = batchF P (tailObs Zr hdr yr dr) := rfl
  rw [h11, h12, h21, h22]

theorem tail_batchF_after_step {κ : Type} [Fintype κ] [DecidableEq κ] {k : ℕ}
    (a : Fin k → ℚ) (P : Matrix (Fin k) (Fin k) ℚ) (z₀ : Fin k → ℚ) (h₀ y₀ d₀ : ℚ)
    (Zr : Matrix κ (Fin k) ℚ) (hdr yr dr : κ → ℚ) (hP : Pᵀ = P) :
    batchF (scalarStep (a, P) (headObs z₀ h₀ y₀ d₀)).2 (tailObs Zr hdr yr dr)
      = batchF P (tailObs Zr hdr yr dr)
        - (scalarF P (headObs z₀ h₀ y₀ d₀))⁻¹
            • vecMulVec (Zr *ᵥ (P *ᵥ z₀)) (Zr *ᵥ (P *ᵥ z₀)) := by
  have hstep : (scalarStep (a, P) (headObs z₀ h₀ y₀ d₀)).2
      = P - (scalarF P (headObs z₀ h₀ y₀ d₀))⁻¹
          • vecMulVec (P *ᵥ z₀) (P *ᵥ z₀) := by
    show P - _ • vecMulVec (P *ᵥ (headObs z₀ h₀ y₀ d₀).z)
        ((headObs z₀ h₀ y₀ d₀).z ᵥ* P) = _
    rw [vecMul_eq_mulVec_of_symm hP]
    rfl
  simp only [batchF, tailObs, hstep]
  rw [Matrix.mul_sub, Matrix.sub_mul, Matrix.mul_smul, Matrix.smul_mul,
    mul_vecMulVec_left, vecMulVec_mul_right, Matrix.vecMul_transpose]
  abel

def punit_invertible (x : ℚ) (hx : x ≠ 0) :
    Invertible (Matrix.of fun _ _ : PUnit => x) :=
  ⟨Matrix.of fun _ _ => x⁻¹,
   by
     ext i j
     rcases i with ⟨⟩
     rcases j with ⟨⟩
     simp [Matrix.mul_apply, Finset.univ_unique, inv_mul_cancel₀ hx, Matrix.one_apply],
   by
     ext i j
     rcases i with ⟨⟩
     rcases j with ⟨⟩
     simp [Matrix.mul_apply, Finset.univ_unique, mul_inv_cancel₀ hx, Matrix.one_apply]⟩

theorem peel_det {κ : Type} [Fintype κ] [DecidableEq κ] {k : ℕ}
    (a : Fin k → ℚ) (P : Matrix (Fin k) (Fin k) ℚ) (z₀ : Fin k → ℚ) (h₀ y₀ d₀ : ℚ)
    (Zr : Matrix κ (Fin k) ℚ) (hdr yr dr : κ → ℚ) (hP : Pᵀ = P)
    (hf : scalarF P (headObs z₀ h₀ y₀ d₀) ≠ 0) :
    (batchF P (sumObs z₀ h₀ y₀ d₀ Zr hdr yr dr)).det
      = scalarF P (headObs z₀ h₀ y₀ d₀)
        * (batchF (scalarStep (a, P) (headObs z₀ h₀ y₀ d₀)).2 (tailObs Zr hdr yr dr)).det := by
  rw [sumObs_batchF_decomp P z₀ h₀ y₀ d₀ Zr hdr yr dr hP]
  letI := punit_invertible (scalarF P (headObs z₀ h₀ y₀ d₀)) hf
  rw [Matrix.det_fromBlocks₁₁]
  have hdetA : (Matrix.of fun _ _ : PUnit => scalarF P (headObs z₀ h₀ y₀ d₀)).det
      = scalarF P (headObs z₀ h₀ y₀ d₀) := Matrix.det_unique _
  have hinv : ⅟(Matrix.of fun _ _ : PUnit => scalarF P (headObs z₀ h₀ y₀ d₀))
      = Matrix.of fun _ _ : PUnit => (scalarF P (headObs z₀ h₀ y₀ d₀))⁻¹ := rfl
  rw [hdetA, hinv]
  congr 2
  rw [tail_batchF_after_step a P z₀ h₀ y₀ d₀ Zr hdr yr dr hP]
  have hCB : Matrix.col PUnit (Zr *ᵥ (P *ᵥ z₀))
        * (Matrix.of fun _ _ : PUnit => (scalarF P (headObs z₀ h₀ y₀ d₀))⁻¹)
        * Matrix.row PUnit (Zr *ᵥ (P *ᵥ z₀))
      = (scalarF P (headObs z₀ h₀ y₀ d₀))⁻¹
          • vecMulVec (Zr *ᵥ (P *ᵥ z₀)) (Zr *ᵥ (P *ᵥ z₀)) := by
    rw [mul_puMat, Matrix.smul_mul, ← Matrix.vecMulVec_eq (PUnit : Type)]
  rw [hCB]

theorem qInv_vec_sol {ι : Type} [Fintype ι] [DecidableEq ι] (A : Matrix ι ι ℚ)
    (hA : A.det ≠ 0) (b : ι → ℚ) : A *ᵥ (qInv A *ᵥ b) = b := by
  rw [qInv_eq_inv, Matrix.mulVec_mulVec,
    Matrix.mul_nonsing_inv A (isUnit_iff_ne_zero.mpr hA), Matrix.one_mulVec]

theorem qInv_mat_sol {ι τ : Type} [Fintype ι] [DecidableEq ι] [Fintype τ]
    (A : Matrix ι ι ℚ) (hA : A.det ≠ 0) (M : Matrix ι τ ℚ) :
    A * (qInv A * M) = M := by
  rw [qInv_eq_inv, ← Matrix.mul_assoc,
    Matrix.mul_nonsing_inv A (isUnit_iff_ne_zero.mpr hA), Matrix.one_mul]

theorem qInv_mulVec_solve {ι : Type} [Fintype ι] [DecidableEq ι] (A : Matrix ι ι ℚ)
    (hA : A.det ≠ 0) {x b : ι → ℚ} (h : A *ᵥ x = b) : qInv A *ᵥ b = x := by
  rw [qInv_eq_inv, ← h, Matrix.mulVec_mulVec,
    Matrix.nonsing_inv_mul A (isUnit_iff_ne_zero.mpr hA), Matrix.one_mulVec]

theorem qInv_mul_solve {ι τ : Type} [Fintype ι] [DecidableEq ι] [Fintype τ]
    (A : Matrix ι ι ℚ) (hA : A.det ≠ 0) {X M : Matrix ι τ ℚ} (h : A * X = M) :
    qInv A * M = X := by
  rw [qInv_eq_inv, ← h, ← Matrix.mul_assoc,
    Matrix.nonsing_inv_mul A (isUnit_iff_ne_zero.mpr hA), Matrix.one_mul]

theorem peel_batchA_quad {κ : Type} [Fintype κ] [DecidableEq κ] {k : ℕ}
    (a : Fin k → ℚ) (P : Matrix (Fin k) (Fin k) ℚ) (z₀ : Fin k → ℚ) (h₀ y₀ d₀ : ℚ)
    (Zr : Matrix κ (Fin k) ℚ) (hdr yr dr : κ → ℚ) (hP : Pᵀ = P)
    (hf : scalarF P (headObs z₀ h₀ y₀ d₀) ≠ 0)
    (hS : (batchF (scalarStep (a, P) (headObs z₀ h₀ y₀ d₀)).2 (tailObs Zr hdr yr dr)).det ≠ 0) :
    batchA a P (sumObs z₀ h₀ y₀ d₀ Zr hdr yr dr)
        = batchA (scalarStep (a, P) (headObs z₀ h₀ y₀ d₀)).1
            (scalarStep (a, P) (headObs z₀ h₀ y₀ d₀)).2 (tailObs Zr hdr yr dr)
      ∧ batchQuad a P (sumObs z₀ h₀ y₀ d₀ Zr hdr yr dr)
        = scalarV a (headObs z₀ h₀ y₀ d₀) ^ 2 / scalarF P (headObs z₀ h₀ y₀ d₀)
          + batchQuad (scalarStep (a, P) (headObs z₀ h₀ y₀ d₀)).1
              (scalarStep (a, P) (headObs z₀ h₀ y₀ d₀)).2 (tailObs Zr hdr yr dr) := by
  have hw : z₀ ᵥ* P = P *ᵥ z₀ := vecMul_eq_mulVec_of_symm hP z₀
  have hstep2 : (scalarStep (a, P) (headObs z₀ h₀ y₀ d₀)).2
      = P - (scalarF P (headObs z₀ h₀ y₀ d₀))⁻¹
          • vecMulVec (P *ᵥ z₀) (P *ᵥ z₀) := by
    show P - _ • vecMulVec (P *ᵥ z₀) (z₀ ᵥ* P) = _
    rw [hw]
  have hstep1 : (scalarStep (a, P) (headObs z₀ h₀ y₀ d₀)).1
      = a + (scalarV a (headObs z₀ h₀ y₀ d₀) / scalarF P (headObs z₀ h₀ y₀ d₀))
          • (P *ᵥ z₀) := rfl
  have hD : batchF P (tailObs Zr hdr yr dr)
      = batchF (scalarStep (a, P) (headObs z₀ h₀ y₀ d₀)).2 (tailObs Zr hdr yr dr)
        + (scalarF P (headObs z₀ h₀ y₀ d₀))⁻¹
            • vecMulVec (Zr *ᵥ (P *ᵥ z₀)) (Zr *ᵥ (P *ᵥ z₀)) := by
    rw [tail_batchF_after_step a P z₀ h₀ y₀ d₀ Zr hdr yr dr hP]
    abel
  have hdetF : (batchF P (sumObs z₀ h₀ y₀ d₀ Zr hdr yr dr)).det ≠ 0 := by
    rw [peel_det a P z₀ h₀ y₀ d₀ Zr hdr yr dr hP hf]
    exact mul_ne_zero hf hS
  have hSu : batchF (scalarStep (a, P) (headObs z₀ h₀ y₀ d₀)).2 (tailObs Zr hdr yr dr)
        *ᵥ (qInv (batchF (scalarStep (a, P) (headObs z₀ h₀ y₀ d₀)).2 (tailObs Zr hdr yr dr))
            *ᵥ batchV (scalarStep (a, P) (headObs z₀ h₀ y₀ d₀)).1 (tailObs Zr hdr yr dr))
      = batchV (scalarStep (a, P) (headObs z₀ h₀ y₀ d₀)).1 (tailObs Zr hdr yr dr) :=
    qInv_vec_sol _ hS _
  set u : κ → ℚ :=
    qInv (batchF (scalarStep (a, P) (headObs z₀ h₀ y₀ d₀)).2 (tailObs Zr hdr yr dr))
      *ᵥ batchV (scalarStep (a, P) (headObs z₀ h₀ y₀ d₀)).1 (tailObs Zr hdr yr dr) with hu
  have hvB : batchV a (sumObs z₀ h₀ y₀ d₀ Zr hdr yr dr)
      = Sum.elim (fun _ => scalarV a (headObs z₀ h₀ y₀ d₀)) (batchV a (tailObs Zr hdr yr dr)) := by
    funext i
    rcases i with ⟨⟨⟩⟩ | j <;>
      simp [batchV, sumObs, tailObs, Matrix.fromRows_mulVec, Matrix.row_mulVec_eq_const,
        scalarV, headObs]
  have hv' : batchV (scalarStep (a, P) (headObs z₀ h₀ y₀ d₀)).1 (tailObs Zr hdr yr dr)
      = batchV a (tailObs Zr hdr yr dr)
        - ((scalarF P (headObs z₀ h₀ y₀ d₀))⁻¹ * scalarV a (headObs z₀ h₀ y₀ d₀))
            • (Zr *ᵥ (P *ᵥ z₀)) := by
    funext j
    show (tailObs Zr hdr yr dr).y j
          - (Zr *ᵥ (a + (scalarV a (headObs z₀ h₀ y₀ d₀)
              / scalarF P (headObs z₀ h₀ y₀ d₀)) • (P *ᵥ z₀))) j
          - (tailObs Zr hdr yr dr).d j = _
    rw [Matrix.mulVec_add, Matrix.mulVec_smul]
    simp only [batchV, Pi.add_apply, Pi.sub_apply, Pi.smul_apply, smul_eq_mul, tailObs]
    rw [div_eq_inv_mul]
    ring
  have hFx : batchF P (sumObs z₀ h₀ y₀ d₀ Zr hdr yr dr)
        *ᵥ Sum.elim
            (fun _ => (scalarF P (headObs z₀ h₀ y₀ d₀))⁻¹
              * (scalarV a (headObs z₀ h₀ y₀ d₀) - (Zr *ᵥ (P *ᵥ z₀)) ⬝ᵥ u)) u
      = batchV a (sumObs z₀ h₀ y₀ d₀ Zr hdr yr dr) := by
    rw [sumObs_batchF_decomp P z₀ h₀ y₀ d₀ Zr hdr yr dr hP, Matrix.fromBlocks_mulVec, hvB]
    simp only [Sum.elim_comp_inl, Sum.elim_comp_inr]
    rw [puMat_mulVec, Matrix.row_mulVec_eq_const, col_mulVec_punit', hD,
      Matrix.add_mulVec, Matrix.smul_mulVec_assoc, vecMulVec_mulVec, hSu, hv']
    funext i
    rcases i with ⟨⟨⟩⟩ | j <;>
      simp only [Sum.elim_inl, Sum.elim_inr, Pi.add_apply, Pi.sub_apply, Pi.smul_apply,
        Function.const_apply, smul_eq_mul]
    · rw [← mul_assoc, mul_inv_cancel₀ hf, one_mul, sub_add_cancel]
    · ring
  have hsol : qInv (batchF P (sumObs z₀ h₀ y₀ d₀ Zr hdr yr dr))
        *ᵥ batchV a (sumObs z₀ h₀ y₀ d₀ Zr hdr yr dr)
      = Sum.elim
          (fun _ => (scalarF P (headObs z₀ h₀ y₀ d₀))⁻¹
            * (scalarV a (headObs z₀ h₀ y₀ d₀) - (Zr *ᵥ (P *ᵥ z₀)) ⬝ᵥ u)) u :=
    qInv_mulVec_solve _ hdetF hFx
  have hZt : (sumObs z₀ h₀ y₀ d₀ Zr hdr yr dr).Zᵀ
      = Matrix.fromColumns (Matrix.col PUnit z₀) Zrᵀ := by
    show (Matrix.fromRows (Matrix.row PUnit z₀) Zr)ᵀ = _
    rw [Matrix.transpose_fromRows, Matrix.transpose_row]
  have hwZu : (P *ᵥ z₀) ⬝ᵥ (Zrᵀ *ᵥ u) = (Zr *ᵥ (P *ᵥ z₀)) ⬝ᵥ u := by
    rw [Matrix.dotProduct_mulVec, Matrix.vecMul_transpose]
  constructor
  · show a + P *ᵥ ((sumObs z₀ h₀ y₀ d₀ Zr hdr yr dr).Zᵀ
        *ᵥ (qInv (batchF P (sumObs z₀ h₀ y₀ d₀ Zr hdr yr dr))
        *ᵥ batchV a (sumObs z₀ h₀ y₀ d₀ Zr hdr yr dr)))
      = _ + _ *ᵥ ((tailObs Zr hdr yr dr).Zᵀ *ᵥ u)
    have htz : (tailObs Zr hdr yr dr).Zᵀ = Zrᵀ := rfl
    rw [hsol, hZt, Matrix.fromColumns_mulVec_sum_elim, col_mulVec_punit,
      Matrix.mulVec_add, Matrix.mulVec_smul, hstep1, hstep2,
      Matrix.sub_mulVec, Matrix.smul_mulVec_assoc, vecMulVec_mulVec, htz]
    funext i
    simp only [Pi.add_apply, Pi.sub_apply, Pi.smul_apply, smul_eq_mul, hwZu]
    rw [div_eq_inv_mul]
    ring
  · show batchV a (sumObs z₀ h₀ y₀ d₀ Zr hdr yr dr)
        ⬝ᵥ (qInv (batchF P (sumObs z₀ h₀ y₀ d₀ Zr hdr yr dr))
          *ᵥ batchV a (sumObs z₀ h₀ y₀ d₀ Zr hdr yr dr))
      = _ + batchV (scalarStep (a, P) (headObs z₀ h₀ y₀ d₀)).1 (tailObs Zr hdr yr dr)
          ⬝ᵥ u
    rw [hsol, hvB, sum_elim_dot_sum_elim, hv']
    rw [Matrix.sub_dotProduct, Matrix.smul_dotProduct]
    simp only [smul_eq_mul]
    rw [div_eq_inv_mul, pow_two]
    ring

theorem peel_batchP {κ : Type} [Fintype κ] [DecidableEq κ] {k : ℕ}
    (a : Fin k → ℚ) (P : Matrix (Fin k) (Fin k) ℚ) (z₀ : Fin k → ℚ) (h₀ y₀ d₀ : ℚ)
    (Zr : Matrix κ (Fin k) ℚ) (hdr yr dr : κ → ℚ) (hP : Pᵀ = P)
    (hf : scalarF P (headObs z₀ h₀ y₀ d₀) ≠ 0)
    (hS : (batchF (scalarStep (a, P) (headObs z₀ h₀ y₀ d₀)).2 (tailObs Zr hdr yr dr)).det ≠ 0) :
    batchP P (sumObs z₀ h₀ y₀ d₀ Zr hdr yr dr)
      = batchP (scalarStep (a, P) (headObs z₀ h₀ y₀ d₀)).2 (tailObs Zr hdr yr dr) := by
  have hw : z₀ ᵥ* P = P *ᵥ z₀ := vecMul_eq_mulVec_of_symm hP z₀
  have hstep2 : (scalarStep (a, P) (headObs z₀ h₀ y₀ d₀)).2
      = P - (scalarF P (headObs z₀ h₀ y₀ d₀))⁻¹
          • vecMulVec (P *ᵥ z₀) (P *ᵥ z₀) := by
    show P - _ • vecMulVec (P *ᵥ z₀) (z₀ ᵥ* P) = _
    rw [hw]
  have hD : batchF P (tailObs Zr hdr yr dr)
      = batchF (scalarStep (a, P) (headObs z₀ h₀ y₀ d₀)).2 (tailObs Zr hdr yr dr)
        + (scalarF P (headObs z₀ h₀ y₀ d₀))⁻¹
            • vecMulVec (Zr *ᵥ (P *ᵥ z₀)) (Zr *ᵥ (P *ᵥ z₀)) := by
    rw [tail_batchF_after_step a P z₀ h₀ y₀ d₀ Zr hdr yr dr hP]
    abel
  have hdetF : (batchF P (sumObs z₀ h₀ y₀ d₀ Zr hdr yr dr)).det ≠ 0 := by
    rw [peel_det a P z₀ h₀ y₀ d₀ Zr hdr yr dr hP hf]
    exact mul_ne_zero hf hS
  obtain ⟨U, hU⟩ : ∃ U : Matrix κ (Fin k) ℚ,
      U = qInv (batchF (scalarStep (a, P) (headObs z₀ h₀ y₀ d₀)).2 (tailObs Zr hdr yr dr))
        * (Zr * (scalarStep (a, P) (headObs z₀ h₀ y₀ d₀)).2) :=
    ⟨_, rfl⟩
  have hSU : batchF (scalarStep (a, P) (headObs z₀ h₀ y₀ d₀)).2 (tailObs Zr hdr yr dr) * U
      = Zr * (scalarStep (a, P) (headObs z₀ h₀ y₀ d₀)).2 := by
    rw [hU]
    exact qInv_mat_sol _ hS _
  have hZs : (sumObs z₀ h₀ y₀ d₀ Zr hdr yr dr).Z
      = Matrix.fromRows (Matrix.row PUnit z₀) Zr := rfl
  have htop : (Matrix.of fun _ _ : PUnit => scalarF P (headObs z₀ h₀ y₀ d₀))
        * ((scalarF P (headObs z₀ h₀ y₀ d₀))⁻¹
            • Matrix.row PUnit ((P *ᵥ z₀) - (Zr *ᵥ (P *ᵥ z₀)) ᵥ* U))
        + Matrix.row PUnit (Zr *ᵥ (P *ᵥ z₀)) * U
      = Matrix.row PUnit z₀ * P := by
    rw [Matrix.mul_smul, puMat_mul, smul_smul, inv_mul_cancel₀ hf, one_smul,
      ← Matrix.row_vecMul, ← Matrix.row_vecMul, hw]
    ext i j
    show (P *ᵥ z₀) j - ((Zr *ᵥ (P *ᵥ z₀)) ᵥ* U) j + ((Zr *ᵥ (P *ᵥ z₀)) ᵥ* U) j
        = (P *ᵥ z₀) j
    ring
  have hbot : Matrix.col PUnit (Zr *ᵥ (P *ᵥ z₀))
        * ((scalarF P (headObs z₀ h₀ y₀ d₀))⁻¹
            • Matrix.row PUnit ((P *ᵥ z₀) - (Zr *ᵥ (P *ᵥ z₀)) ᵥ* U))
        + batchF P (tailObs Zr hdr yr dr) * U
      = Zr * P := by
    rw [Matrix.mul_smul, ← Matrix.vecMulVec_eq (PUnit : Type), hD, Matrix.add_mul,
      hSU, Matrix.smul_mul, vecMulVec_mul_right, hstep2, Matrix.mul_sub,
      Matrix.mul_smul, mul_vecMulVec_left, vecMulVec_sub_right, smul_sub]
    abel
  have hFG : batchF P (sumObs z₀ h₀ y₀ d₀ Zr hdr yr dr)
        * Matrix.fromRows
            ((scalarF P (headObs z₀ h₀ y₀ d₀))⁻¹
              • Matrix.row PUnit ((P *ᵥ z₀) - (Zr *ᵥ (P *ᵥ z₀)) ᵥ* U)) U
      = (sumObs z₀ h₀ y₀ d₀ Zr hdr yr dr).Z * P := by
    rw [sumObs_batchF_decomp P z₀ h₀ y₀ d₀ Zr hdr yr dr hP,
      Matrix.fromBlocks_mul_fromRows, hZs, Matrix.fromRows_mul, htop, hbot]
  have hqinv : qInv (batchF P (sumObs z₀ h₀ y₀ d₀ Zr hdr yr dr))
        * ((sumObs z₀ h₀ y₀ d₀ Zr hdr yr dr).Z * P)
      = Matrix.fromRows
          ((scalarF P (headObs z₀ h₀ y₀ d₀))⁻¹
            • Matrix.row PUnit ((P *ᵥ z₀) - (Zr *ᵥ (P *ᵥ z₀)) ᵥ* U)) U :=
    qInv_mul_solve _ hdetF hFG
  have hZt : (sumObs z₀ h₀ y₀ d₀ Zr hdr yr dr).Zᵀ
      = Matrix.fromColumns (Matrix.col PUnit z₀) Zrᵀ := by
    show (Matrix.fromRows (Matrix.row PUnit z₀) Zr)ᵀ = _
    rw [Matrix.transpose_fromRows, Matrix.transpose_row]
  have htz : (tailObs Zr hdr yr dr).Zᵀ = Zrᵀ := rfl
  have htzz : (tailObs Zr hdr yr dr).Z = Zr := rfl
  simp only [batchP, Matrix.mul_assoc]
  rw [hqinv, hZt, Matrix.fromColumns_mul_fromRows, htz, htzz, ← hU]
  rw [Matrix.mul_smul, ← Matrix.vecMulVec_eq (PUnit : Type), Matrix.mul_add,
    Matrix.mul_smul, mul_vecMulVec_left, vecMulVec_sub_right, smul_sub,
    hstep2, Matrix.sub_mul, Matrix.smul_mul, vecMulVec_mul_right,
    ← Matrix.vecMul_vecMul, Matrix.vecMul_transpose]
  abel

/-! ### Sequential processing of all rows equals the batch update -/

theorem batchDet_of_isEmpty {ι : Type} [Fintype ι] [DecidableEq ι] [IsEmpty ι] {k : ℕ}
    (P : Matrix (Fin k) (Fin k) ℚ) (B : BatchObs ι k) :
    batchDet P B = 1 :=
  Matrix.det_isEmpty

theorem batchQuad_of_isEmpty {ι : Type} [Fintype ι] [DecidableEq ι] [IsEmpty ι] {k : ℕ}
    (a : Fin k → ℚ) (P : Matrix (Fin k) (Fin k) ℚ) (B : BatchObs ι k) :
    batchQuad a P B = 0 := by
  unfold batchQuad
  simp [dotProduct, Finset.univ_eq_empty]

/-- The index equivalence splitting the first observation row from the rest. -/
def finSuccToSum (m : ℕ) : Fin (m + 1) ≃ PUnit ⊕ Fin m where
  toFun i := Fin.cases (Sum.inl PUnit.unit) (fun j => Sum.inr j) i
  invFun s := Sum.elim (fun _ => 0) Fin.succ s
  left_inv i := by
    refine Fin.cases ?_ (fun j => ?_) i <;> simp
  right_inv s := by
    rcases s with ⟨⟩ | j <;> simp

/-- A diagonal-`H` period over `Fin (m+1)` is the head-plus-tail split period,
reindexed along `finSuccToSum`. -/
theorem tailObs_succ_decomp {k m : ℕ} (Zm : Matrix (Fin (m + 1)) (Fin k) ℚ)
    (hm ym dm : Fin (m + 1) → ℚ) :
    tailObs Zm hm ym dm
      = BatchObs.reindex (finSuccToSum m)
          (sumObs (fun j => Zm 0 j) (hm 0) (ym 0) (dm 0)
            (Matrix.of fun i j => Zm i.succ j) (fun i => hm i.succ)
            (fun i => ym i.succ) (fun i => dm i.succ)) := by
  unfold tailObs sumObs BatchObs.reindex
  congr 1
  · ext i j
    refine Fin.cases ?_ (fun i' => ?_) i <;> simp [finSuccToSum]
  · rw [Matrix.submatrix_diagonal _ _ (Equiv.injective (finSuccToSum m))]
    have hcomp : (Sum.elim (fun _ : PUnit => hm 0) fun i => hm i.succ) ∘ ⇑(finSuccToSum m)
        = hm := by
      funext i
      refine Fin.cases ?_ (fun i' => ?_) i <;> simp [finSuccToSum]
    rw [hcomp]
  · funext i
    refine Fin.cases ?_ (fun i' => ?_) i <;> simp [finSuccToSum]
  · funext i
    refine Fin.cases ?_ (fun i' => ?_) i <;> simp [finSuccToSum]

/-- The scalar rows of a diagonal-`H` period, in index order, as consumed by the
univariate method. -/
def rowsOfFin {k m : ℕ} (Zm : Matrix (Fin m) (Fin k) ℚ) (hm ym dm : Fin m → ℚ) :
    List (ScalarObs k) :=
  List.ofFn fun i => ⟨fun j => Zm i j, hm i, ym i, dm i⟩

theorem rowsOfFin_succ {k m : ℕ} (Zm : Matrix (Fin (m + 1)) (Fin k) ℚ)
    (hm ym dm : Fin (m + 1) → ℚ) :
    rowsOfFin Zm hm ym dm
      = headObs (fun j => Zm 0 j) (hm 0) (ym 0) (dm 0)
        :: rowsOfFin (Matrix.of fun i j => Zm i.succ j)
            (fun i => hm i.succ) (fun i => ym i.succ) (fun i => dm i.succ) := by
  unfold rowsOfFin
  rw [List.ofFn_succ]
  rfl

theorem seq_cons_eq_batch {κ : Type} [Fintype κ] [DecidableEq κ] {k : ℕ}
    (a : Fin k → ℚ) (P : Matrix (Fin k) (Fin k) ℚ) (z₀ : Fin k → ℚ) (h₀ y₀ d₀ : ℚ)
    (Zr : Matrix κ (Fin k) ℚ) (hdr yr dr : κ → ℚ) (l : List (ScalarObs k)) (hP : Pᵀ = P)
    (hf : scalarF P (headObs z₀ h₀ y₀ d₀) ≠ 0)
    (hS : (batchF (scalarStep (a, P) (headObs z₀ h₀ y₀ d₀)).2 (tailObs Zr hdr yr dr)).det ≠ 0)
    (hAP : seqAP ((scalarStep (a, P) (headObs z₀ h₀ y₀ d₀)).1,
                  (scalarStep (a, P) (headObs z₀ h₀ y₀ d₀)).2) l
           = (batchA (scalarStep (a, P) (headObs z₀ h₀ y₀ d₀)).1
                (scalarStep (a, P) (headObs z₀ h₀ y₀ d₀)).2 (tailObs Zr hdr yr dr),
              batchP (scalarStep (a, P) (headObs z₀ h₀ y₀ d₀)).2 (tailObs Zr hdr yr dr)))
    (hdet : seqDet ((scalarStep (a, P) (headObs z₀ h₀ y₀ d₀)).1,
                    (scalarStep (a, P) (headObs z₀ h₀ y₀ d₀)).2) l
           = batchDet (scalarStep (a, P) (headObs z₀ h₀ y₀ d₀)).2 (tailObs Zr hdr yr dr))
    (hquad : seqQuad ((scalarStep (a, P) (headObs z₀ h₀ y₀ d₀)).1,
                      (scalarStep (a, P) (headObs z₀ h₀ y₀ d₀)).2) l
           = batchQuad (scalarStep (a, P) (headObs z₀ h₀ y₀ d₀)).1
               (scalarStep (a, P) (headObs z₀ h₀ y₀ d₀)).2 (tailObs Zr hdr yr dr)) :
    seqAP (a, P) (headObs z₀ h₀ y₀ d₀ :: l)
        = (batchA a P (sumObs z₀ h₀ y₀ d₀ Zr hdr yr dr),
           batchP P (sumObs z₀ h₀ y₀ d₀ Zr hdr yr dr))
      ∧ seqDet (a, P) (headObs z₀ h₀ y₀ d₀ :: l)
        = batchDet P (sumObs z₀ h₀ y₀ d₀ Zr hdr yr dr)
      ∧ seqQuad (a, P) (headObs z₀ h₀ y₀ d₀ :: l)
        = batchQuad a P (sumObs z₀ h₀ y₀ d₀ Zr hdr yr dr) := by
  obtain ⟨hA, hQ⟩ := peel_batchA_quad a P z₀ h₀ y₀ d₀ Zr hdr yr dr hP hf hS
  have hPm := peel_batchP a P z₀ h₀ y₀ d₀ Zr hdr yr dr hP hf hS
  have hDm := peel_det a P z₀ h₀ y₀ d₀ Zr hdr yr dr hP hf
  refine ⟨?_, ?_, ?_⟩
  · show seqAP ((scalarStep (a, P) (headObs z₀ h₀ y₀ d₀)).1,
        (scalarStep (a, P) (headObs z₀ h₀ y₀ d₀)).2) l = _
    rw [hAP, hA, hPm]
  · show scalarF P (headObs z₀ h₀ y₀ d₀)
        * seqDet ((scalarStep (a, P) (headObs z₀ h₀ y₀ d₀)).1,
            (scalarStep (a, P) (headObs z₀ h₀ y₀ d₀)).2) l
      = (batchF P (sumObs z₀ h₀ y₀ d₀ Zr hdr yr dr)).det
    rw [hdet, hDm]
    rfl
  · show scalarV a (headObs z₀ h₀ y₀ d₀) ^ 2 / scalarF P (headObs z₀ h₀ y₀ d₀)
        + seqQuad ((scalarStep (a, P) (headObs z₀ h₀ y₀ d₀)).1,
            (scalarStep (a, P) (headObs z₀ h₀ y₀ d₀)).2) l
      = batchQuad a P (sumObs z₀ h₀ y₀ d₀ Zr hdr yr dr)
    rw [hquad, hQ]

/-- The univariate method's sequential processing of the scalar rows of a
diagonal-`H` period reproduces exactly the batch update, determinant and
quadratic form of that period, provided every scalar forecast variance along
the run is nonzero. -/
theorem seq_eq_batch {k : ℕ} : ∀ (m : ℕ) (Zm : Matrix (Fin m) (Fin k) ℚ)
    (hm ym dm : Fin m → ℚ) (a : Fin k → ℚ) (P : Matrix (Fin k) (Fin k) ℚ),
    Pᵀ = P → seqOk (a, P) (rowsOfFin Zm hm ym dm) →
    seqAP (a, P) (rowsOfFin Zm hm ym dm)
        = (batchA a P (tailObs Zm hm ym dm), batchP P (tailObs Zm hm ym dm))
      ∧ seqDet (a, P) (rowsOfFin Zm hm ym dm) = batchDet P (tailObs Zm hm ym dm)
      ∧ seqQuad (a, P) (rowsOfFin Zm hm ym dm) = batchQuad a P (tailObs Zm hm ym dm) := by
  intro m
  induction m with
  | zero =>
    intro Zm hm ym dm a P hP hok
    refine ⟨?_, ?_, ?_⟩
    · show (a, P) = _
      rw [batchA_of_isEmpty, batchP_of_isEmpty]
    · show (1 : ℚ) = _
      rw [batchDet_of_isEmpty]
    · show (0 : ℚ) = _
      rw [batchQuad_of_isEmpty]
  | succ m ih =>
    intro Zm hm ym dm a P hP hok
    rw [rowsOfFin_succ] at hok ⊢
    rw [tailObs_succ_decomp Zm hm ym dm, batchA_reindex, batchP_reindex,
      batchDet_reindex, batchQuad_reindex]
    obtain ⟨hf0, hokt⟩ := hok
    have hsym : ((scalarStep (a, P) (headObs (fun j => Zm 0 j) (hm 0) (ym 0) (dm 0))).2)ᵀ
        = (scalarStep (a, P) (headObs (fun j => Zm 0 j) (hm 0) (ym 0) (dm 0))).2 :=
      scalarStep_symm hP _
    obtain ⟨ihAP, ihdet, ihquad⟩ :=
      ih (Matrix.of fun (i : Fin m) (j : Fin k) => Zm i.succ j) (fun i => hm i.succ) (fun i => ym i.succ)
        (fun i => dm i.succ)
        (scalarStep (a, P) (headObs (fun j => Zm 0 j) (hm 0) (ym 0) (dm 0))).1
        (scalarStep (a, P) (headObs (fun j => Zm 0 j) (hm 0) (ym 0) (dm 0))).2
        hsym hokt
    have hS : (batchF
          (scalarStep (a, P) (headObs (fun j => Zm 0 j) (hm 0) (ym 0) (dm 0))).2
          (tailObs (Matrix.of fun (i : Fin m) (j : Fin k) => Zm i.succ j) (fun i => hm i.succ)
            (fun i => ym i.succ) (fun i => dm i.succ))).det ≠ 0 := by
      have h1 : seqDet
            ((scalarStep (a, P) (headObs (fun j => Zm 0 j) (hm 0) (ym 0) (dm 0))).1,
             (scalarStep (a, P) (headObs (fun j => Zm 0 j) (hm 0) (ym 0) (dm 0))).2)
            (rowsOfFin (Matrix.of fun (i : Fin m) (j : Fin k) => Zm i.succ j) (fun i => hm i.succ)
              (fun i => ym i.succ) (fun i => dm i.succ)) ≠ 0 :=
        seqDet_ne_zero hokt
      rw [ihdet] at h1
      exact h1
    exact seq_cons_eq_batch a P (fun j => Zm 0 j) (hm 0) (ym 0) (dm 0)
      (Matrix.of fun (i : Fin m) (j : Fin k) => Zm i.succ j) (fun i => hm i.succ) (fun i => ym i.succ)
      (fun i => dm i.succ) _ hP hf0 hS ihAP ihdet ihquad

/-! ### The univariate method at the period level -/

/-- The list of non-missing observation row indices of a period, in index
order. -/
def obsList {p : ℕ} (m : Fin p → Bool) : List (ObsIdx m) :=
  (List.finRange p).filterMap fun i => if h : m i = false then some ⟨i, h⟩ else none

theorem obsList_nodup {p : ℕ} (m : Fin p → Bool) : (obsList m).Nodup := by
  refine List.Nodup.filterMap ?_ (List.nodup_finRange p)
  intro a b c hca hcb
  rcases Decidable.em (m a = false) with ha | ha
  · rcases Decidable.em (m b = false) with hb | hb
    · simp [ha, hb] at hca hcb
      rw [← hca] at hcb
      exact (congrArg Subtype.val hcb).symm
    · simp [hb] at hcb
  · simp [ha] at hca

theorem obsList_mem {p : ℕ} (m : Fin p → Bool) (x : ObsIdx m) : x ∈ obsList m := by
  unfold obsList
  rw [List.mem_filterMap]
  exact ⟨x.1, List.mem_finRange x.1, by simp [x.2]⟩

/-- A computable enumeration of the non-missing observation rows of a period. -/
def obsEquiv {p : ℕ} (m : Fin p → Bool) : Fin (obsList m).length ≃ ObsIdx m :=
  List.Nodup.getEquivOfForallMemList (obsList m) (obsList_nodup m) (obsList_mem m)

/-- Modelled from the spec (section 4.2, univariate): the design rows of the
non-missing observations, enumerated in sequence. -/
def uniZ {k p r : ℕ} (rep : Representation k p r) (t : ℕ) :
    Matrix (Fin (obsList (rep.missing t)).length) (Fin k) ℚ :=
  Matrix.of fun i j => rep.Z t (obsEquiv (rep.missing t) i).1 j

/-- The diagonal observation variances of the non-missing rows. -/
def uniH {k p r : ℕ} (rep : Representation k p r) (t : ℕ) :
    Fin (obsList (rep.missing t)).length → ℚ :=
  fun i => rep.H t (obsEquiv (rep.missing t) i).1 (obsEquiv (rep.missing t) i).1

/-- The non-missing observations, enumerated in sequence. -/
def uniY {k p r : ℕ} (rep : Representation k p r) (t : ℕ) :
    Fin (obsList (rep.missing t)).length → ℚ :=
  fun i => rep.y t (obsEquiv (rep.missing t) i).1

/-- The observation intercepts of the non-missing rows. -/
def uniD {k p r : ℕ} (rep : Representation k p r) (t : ℕ) :
    Fin (obsList (rep.missing t)).length → ℚ :=
  fun i => rep.d t (obsEquiv (rep.missing t) i).1

/-- The scalar observation rows processed sequentially by the univariate method
at period `t`. -/
def uniRows {k p r : ℕ} (rep : Representation k p r) (t : ℕ) : List (ScalarObs k) :=
  rowsOfFin (uniZ rep t) (uniH rep t) (uniY rep t) (uniD rep t)

/-- When `H_t` is diagonal, the period's observation data reindexed along the
enumeration of non-missing rows is exactly the diagonal batch consumed row by
row by the univariate method. -/
theorem obsData_reindex_eq_tailObs {k p r : ℕ} (rep : Representation k p r) (t : ℕ)
    (hdiag : ∀ i j : Fin p, i ≠ j → rep.H t i j = 0) :
    BatchObs.reindex (obsEquiv (rep.missing t)) (obsData rep t)
      = tailObs (uniZ rep t) (uniH rep t) (uniY rep t) (uniD rep t) := by
  have hH : (obsData rep t).H.submatrix (⇑(obsEquiv (rep.missing t)))
        (⇑(obsEquiv (rep.missing t))) = Matrix.diagonal (uniH rep t) := by
    ext i j
    by_cases hij : i = j
    · subst hij
      rw [Matrix.diagonal_apply_eq]
      rfl
    · rw [Matrix.diagonal_apply_ne _ hij]
      show rep.H t (obsEquiv (rep.missing t) i).1 (obsEquiv (rep.missing t) j).1 = 0
      refine hdiag _ _ fun hc => hij (Equiv.injective _ (Subtype.ext hc))
  unfold BatchObs.reindex tailObs
  rw [hH]
  rfl

/-- The univariate method's filter recursion: each period's update processes the
non-missing observation rows sequentially (spec section 4.2, univariate). -/
def predictedUni {k p r : ℕ} (rep : Representation k p r) :
    ℕ → (Fin k → ℚ) × Matrix (Fin k) (Fin k) ℚ
  | 0 => (rep.a1, rep.P1)
  | t + 1 =>
    let s := seqAP (predictedUni rep t) (uniRows rep t)
    predStep rep t s.1 s.2

/-- The univariate method's per-period log-likelihood data:
`log |F_t| = ∑ log f_i` and `quad = ∑ v_i² / f_i`, recorded exactly as the pair
`(∏ f_i, ∑ v_i² / f_i)`. -/
def llUni {k p r : ℕ} (rep : Representation k p r) (t : ℕ) : LLData :=
  ⟨Fintype.card (ObsIdx (rep.missing t)),
   seqDet (predictedUni rep t) (uniRows rep t),
   seqQuad (predictedUni rep t) (uniRows rep t)⟩

/-! ### Symmetry propagation along the filter recursion -/

theorem qInv_transpose {ι : Type} [Fintype ι] [DecidableEq ι] (A : Matrix ι ι ℚ) :
    (qInv A)ᵀ = qInv Aᵀ := by
  unfold qInv
  rw [Matrix.transpose_smul, Matrix.det_transpose, Matrix.adjugate_transpose]

theorem batchF_symm {ι : Type} [Fintype ι] {k : ℕ} (P : Matrix (Fin k) (Fin k) ℚ)
    (B : BatchObs ι k) (hP : Pᵀ = P) (hH : B.Hᵀ = B.H) :
    (batchF P B)ᵀ = batchF P B := by
  unfold batchF
  simp only [Matrix.transpose_add, Matrix.transpose_mul, Matrix.transpose_transpose,
    hP, hH, Matrix.mul_assoc]

theorem batchP_symm {ι : Type} [Fintype ι] [DecidableEq ι] {k : ℕ}
    (P : Matrix (Fin k) (Fin k) ℚ) (B : BatchObs ι k) (hP : Pᵀ = P)
    (hH : B.Hᵀ = B.H) : (batchP P B)ᵀ = batchP P B := by
  have hq : (qInv (batchF P B))ᵀ = qInv (batchF P B) := by
    rw [qInv_transpose, batchF_symm P B hP hH]
  unfold batchP
  simp only [Matrix.transpose_sub, Matrix.transpose_mul, Matrix.transpose_transpose,
    hP, hq, Matrix.mul_assoc]

theorem predStep_symm {k p r : ℕ} (rep : Representation k p r) (t : ℕ)
    (af : Fin k → ℚ) {Pf : Matrix (Fin k) (Fin k) ℚ} (hPf : Pfᵀ = Pf)
    (hQ : (rep.Q t)ᵀ = rep.Q t) :
    ((predStep rep t af Pf).2)ᵀ = (predStep rep t af Pf).2 := by
  show (rep.T t * Pf * (rep.T t)ᵀ + rep.R t * rep.Q t * (rep.R t)ᵀ)ᵀ
      = rep.T t * Pf * (rep.T t)ᵀ + rep.R t * rep.Q t * (rep.R t)ᵀ
  simp only [Matrix.transpose_add, Matrix.transpose_mul, Matrix.transpose_transpose,
    hPf, hQ, Matrix.mul_assoc]

theorem obsData_H_symm {k p r : ℕ} (rep : Representation k p r) (t : ℕ)
    (hH : ∀ i j : Fin p, i ≠ j → rep.H t i j = 0) :
    ((obsData rep t).H)ᵀ = (obsData rep t).H := by
  ext i j
  by_cases hij : i = j
  · subst hij
    rfl
  · have h1 : i.1 ≠ j.1 := fun hc => hij (Subtype.ext hc)
    show rep.H t j.1 i.1 = rep.H t i.1 j.1
    rw [hH _ _ (Ne.symm h1), hH _ _ h1]

theorem predicted_symm {k p r : ℕ} (rep : Representation k p r)
    (hP1 : rep.P1ᵀ = rep.P1) (hH : ∀ t, ∀ i j : Fin p, i ≠ j → rep.H t i j = 0)
    (hQ : ∀ t, (rep.Q t)ᵀ = rep.Q t) (t : ℕ) :
    ((predicted rep t).2)ᵀ = (predicted rep t).2 := by
  induction t with
  | zero => exact hP1
  | succ t ih =>
    show ((predStep rep t _ (batchP (predicted rep t).2 (obsData rep t))).2)ᵀ = _
    exact predStep_symm rep t _
      (batchP_symm _ _ ih (obsData_H_symm rep t (hH t))) (hQ t)

/-! ### The univariate method reproduces the conventional filter -/

theorem period_uni_eq_batch {k p r : ℕ} (rep : Representation k p r) (t : ℕ)
    (hHd : ∀ i j : Fin p, i ≠ j → rep.H t i j = 0)
    (a : Fin k → ℚ) {P : Matrix (Fin k) (Fin k) ℚ} (hP : Pᵀ = P)
    (hok : seqOk (a, P) (uniRows rep t)) :
    seqAP (a, P) (uniRows rep t)
        = (batchA a P (obsData rep t), batchP P (obsData rep t))
      ∧ seqDet (a, P) (uniRows rep t) = batchDet P (obsData rep t)
      ∧ seqQuad (a, P) (uniRows rep t) = batchQuad a P (obsData rep t) := by
  have h := seq_eq_batch (obsList (rep.missing t)).length (uniZ rep t)
    (uniH rep t) (uniY rep t) (uniD rep t) a P hP hok
  rw [← obsData_reindex_eq_tailObs rep t hHd, batchA_reindex, batchP_reindex,
    batchDet_reindex, batchQuad_reindex] at h
  exact h

theorem predictedUni_eq {k p r : ℕ} (rep : Representation k p r)
    (hP1 : rep.P1ᵀ = rep.P1)
    (hH : ∀ t, ∀ i j : Fin p, i ≠ j → rep.H t i j = 0)
    (hQ : ∀ t, (rep.Q t)ᵀ = rep.Q t)
    (hok : ∀ t, seqOk (predictedUni rep t) (uniRows rep t)) (t : ℕ) :
    predictedUni rep t = predicted rep t := by
  induction t with
  | zero => rfl
  | succ t ih =>
    have hsym : ((predicted rep t).2)ᵀ = (predicted rep t).2 :=
      predicted_symm rep hP1 hH hQ t
    have hok' : seqOk ((predicted rep t).1, (predicted rep t).2) (uniRows rep t) := by
      have h0 := hok t
      rw [ih] at h0
      exact h0
    have h := period_uni_eq_batch rep t (hH t) (predicted rep t).1 hsym hok'
    have h1 : seqAP (predicted rep t) (uniRows rep t)
        = (batchA (predicted rep t).1 (predicted rep t).2 (obsData rep t),
           batchP (predicted rep t).2 (obsData rep t)) := h.1
    show predStep rep t (seqAP (predictedUni rep t) (uniRows rep t)).1
        (seqAP (predictedUni rep t) (uniRows rep t)).2
      = predStep rep t
          (batchA (predicted rep t).1 (predicted rep t).2 (obsData rep t))
          (batchP (predicted rep t).2 (obsData rep t))
    rw [ih, h1]

theorem llUni_eq_llConv {k p r : ℕ} (rep : Representation k p r)
    (hP1 : rep.P1ᵀ = rep.P1)
    (hH : ∀ t, ∀ i j : Fin p, i ≠ j → rep.H t i j = 0)
    (hQ : ∀ t, (rep.Q t)ᵀ = rep.Q t)
    (hok : ∀ t, seqOk (predictedUni rep t) (uniRows rep t)) (t : ℕ) :
    llUni rep t = llConv rep t := by
  have hpe := predictedUni_eq rep hP1 hH hQ hok t
  have hsym : ((predicted rep t).2)ᵀ = (predicted rep t).2 :=
    predicted_symm rep hP1 hH hQ t
  have hok' : seqOk ((predicted rep t).1, (predicted rep t).2) (uniRows rep t) := by
    have h0 := hok t
    rw [hpe] at h0
    exact h0
  obtain ⟨hAP, hdet, hquad⟩ :=
    period_uni_eq_batch rep t (hH t) (predicted rep t).1 hsym hok'
  have hdet' : seqDet (predicted rep t) (uniRows rep t)
      = batchDet (predicted rep t).2 (obsData rep t) := hdet
  have hquad' : seqQuad (predicted rep t) (uniRows rep t)
      = batchQuad (predicted rep t).1 (predicted rep t).2 (obsData rep t) := hquad
  unfold llUni llConv
  rw [hpe, hdet', hquad']

/-- C7: for every valid representation — symmetric initial and state-shock
covariances, observation covariance diagonal (as consumed by the univariate
method after diagonalization), and nonzero scalar forecast variances along the
univariate run — the per-period log-likelihood data computed by the
conventional, inversion and univariate filter methods are exactly equal over
exact arithmetic; in particular the three log-likelihoods agree within any
numerical tolerance. -/
theorem loglike_methods_agree {k p r : ℕ} (rep : Representation k p r)
    (hP1 : rep.P1ᵀ = rep.P1)
    (hH : ∀ t, ∀ i j : Fin p, i ≠ j → rep.H t i j = 0)
    (hQ : ∀ t, (rep.Q t)ᵀ = rep.Q t)
    (hok : ∀ t, seqOk (predictedUni rep t) (uniRows rep t)) (t : ℕ) :
    llInv rep t = llConv rep t ∧ llUni rep t = llConv rep t :=
  ⟨llInv_eq_llConv rep t, llUni_eq_llConv rep hP1 hH hQ hok t⟩

/-- A concrete one-dimensional representation with `T = 0`: the predicted
covariance is constant over time, so every scalar forecast variance along the
univariate run equals `2`. -/
def repC7 : Representation 1 1 1 :=
  ⟨fun _ => Matrix.of fun _ _ => 1,
   fun _ _ => 0,
   fun _ => Matrix.of fun _ _ => 1,
   fun _ => Matrix.of fun _ _ => 0,
   fun _ _ => 0,
   fun _ => Matrix.of fun _ _ => 1,
   fun _ => Matrix.of fun _ _ => 1,
   fun _ => 0,
   Matrix.of fun _ _ => 1,
   fun _ _ => 1,
   fun _ _ => false⟩

theorem repC7_cov : ∀ t, (predictedUni repC7 t).2 = Matrix.of fun _ _ => (1 : ℚ) := by
  intro t
  cases t with
  | zero => rfl
  | succ t =>
    show (predStep repC7 t _ _).2 = _
    unfold predStep
    ext i j
    simp [repC7, Matrix.mul_apply, Fin.sum_univ_one]

theorem repC7_seqOk : ∀ t, seqOk (predictedUni repC7 t) (uniRows repC7 t) := by
  intro t
  refine ⟨?_, trivial⟩
  rw [repC7_cov t]
  simp [scalarF, uniZ, uniH, uniY, uniD, repC7, Matrix.mulVec, dotProduct,
    Fin.sum_univ_one]

theorem loglike_methods_agree_witness :
    llInv repC7 1 = llConv repC7 1 ∧ llUni repC7 1 = llConv repC7 1 :=
  loglike_methods_agree repC7 rfl
    (by
      intro t i j hij
      fin_cases i
      fin_cases j
      exact absurd rfl hij)
    (fun t => rfl) repC7_seqOk 1

end SSM
